import Mathlib

set_option maxHeartbeats 1000000
set_option maxRecDepth 8000

namespace PUI

/-!
Shallow embedding of the core of the project-understanding indexing pipeline:
the SQLite store (`db.py`), the graph engine (`graph.py`), the incremental
indexer (`indexer.py`), the regex fallback of the parser (`parser.py`), the
zoom-pack truncation (`packs.py`) and the token budgeter (`tokens.py`).
Each definition is translated from the named source function; rationals stand
for Python floats, `Nat`/`Int` for Python ints, and explicit state records for
the SQLite tables.
-/

/-! ### Store meta table and schema versioning (db.py) -/

/-- Current schema version constant of db.py (`SCHEMA_VERSION = 1`). -/
def SCHEMA_VERSION : Nat := 1

/-- Meta table of db.py: a key to value map of strings, in row order. -/
abbrev MetaTable := List (String × String)

/-- Lookup of a meta value (db.py `Database.get_meta` and the schema-version SELECT). -/
def metaGet (m : MetaTable) (key : String) : Option String :=
  (m.find? (fun kv => kv.1 == key)).map (fun kv => kv.2)

/-- Database._set_meta: `INSERT OR REPLACE INTO meta (key, value)`. -/
def metaSet (m : MetaTable) (key value : String) : MetaTable :=
  if (m.find? (fun kv => kv.1 == key)).isSome then
    m.map (fun kv => if kv.1 == key then (key, value) else kv)
  else
    m ++ [(key, value)]

/-- Helper for `pyIntOfDecimal`: reads decimal digits, accumulating the value. -/
def parseDigits : List Char → Nat → Option Nat
  | [], acc => some acc
  | c :: cs, acc =>
    if c.isDigit then parseDigits cs (acc * 10 + (c.toNat - ('0').toNat)) else none

/-- Python `int()` restricted to the non-negative decimal numerals that
`str(int)` produces, which is the only shape the store ever writes. -/
def pyIntOfDecimal (s : String) : Option Nat :=
  match s.toList with
  | [] => none
  | l => parseDigits l 0

/-- Database._get_schema_version: `int` of the stored value if the row exists,
else 0.  The stored value is always a decimal numeral (written by `_set_meta`
with `str(int)`); a non-numeral would raise in Python and never occurs. -/
def getSchemaVersion (m : MetaTable) : Nat :=
  match metaGet m "schema_version" with
  | some v => (pyIntOfDecimal v).getD 0
  | none => 0

/-- Exception class `SchemaVersionError` of db.py ("Schema version mismatch
error").  It is declared in db.py but never raised anywhere. -/
inductive SchemaVersionError where
  | unsupportedFutureVersion (stored current : Nat)
deriving Repr, DecidableEq

/-- Database._migrate_schema: stamps the new version number and `migrated_at`.
It performs no check on the direction of the migration. -/
def migrateSchema (m : MetaTable) (toVersion : Nat) (now : Nat) : MetaTable :=
  metaSet (metaSet m "schema_version" (toString toVersion)) "migrated_at" (toString now)

/-- Database._init_schema, meta-table handling (the `CREATE TABLE IF NOT EXISTS`
DDL part is pure table creation and is elided).  On a fresh store it stamps the
current version and `created_at`; on ANY stored version different from
`SCHEMA_VERSION` - lower or higher - it calls `_migrate_schema`.  The result
type records that db.py has no code path raising `SchemaVersionError`: every
branch returns `.ok`. -/
def initSchema (m : MetaTable) (now : Nat) : Except SchemaVersionError MetaTable :=
  let current := getSchemaVersion m
  if current = 0 then
    .ok (metaSet (metaSet m "schema_version" (toString SCHEMA_VERSION))
          "created_at" (toString now))
  else if current ≠ SCHEMA_VERSION then
    .ok (migrateSchema m SCHEMA_VERSION now)
  else
    .ok m

/-! ### Edges table and Database.add_edge (db.py) -/

/-- Metadata payload of an edge as the code reads it back: a JSON object whose
only key consulted anywhere in the core is `confidence`
(graph.py `_extract_confidence`); the other keys (`line`, `context`) are
carried but never read, so they are elided. -/
structure EdgeMeta where
  confidence : Option ℚ
deriving Repr, DecidableEq

/-- Row of the `edges` table exactly as declared by db.py `CREATE_TABLES_SQL`:
columns id, source_id, target_id, kind, file_id, metadata.  The declared
schema has NO confidence column. -/
structure EdgeRow where
  id : Nat
  source_id : Nat
  target_id : Nat
  kind : String
  file_id : Nat
  metadata : Option EdgeMeta
deriving Repr, DecidableEq

/-- Column names of the `edges` table declared in db.py `CREATE_TABLES_SQL`. -/
def edgesTableColumns : List String :=
  ["id", "source_id", "target_id", "kind", "file_id", "metadata"]

/-- Column names targeted by the INSERT statement inside `Database.add_edge`
(db.py line 439). -/
def addEdgeInsertColumns : List String :=
  ["source_id", "target_id", "kind", "file_id", "confidence", "metadata"]

/-- SQLite operational errors arising in the modelled statements. -/
inductive SqlError where
  | noSuchColumn (table column : String)
deriving Repr, DecidableEq

/-- SQLite validation of an INSERT column list: naming a column the table does
not declare raises `sqlite3.OperationalError: table ... has no column named ...`. -/
def checkInsertColumns (table : String) (declared cols : List String) :
    Except SqlError Unit :=
  match cols.find? (fun c => !(declared.contains c)) with
  | some c => .error (.noSuchColumn table c)
  | none => .ok ()

/-- State of the `edges` table: rows in insertion order plus the AUTOINCREMENT
counter for the next id. -/
structure EdgesTable where
  rows : List EdgeRow
  nextId : Nat
deriving Repr, DecidableEq

/-- Database.add_edge: first the duplicate-check SELECT on the
(source_id, target_id, kind, file_id) tuple, returning the existing id when a
row matches; otherwise the INSERT, whose column list names `confidence`.  The
`confidence` argument is a Python float, modelled as a rational. -/
def addEdge (db : EdgesTable) (sourceId targetId : Nat) (kind : String)
    (fileId : Nat) (confidence : ℚ) (metadata : Option EdgeMeta) :
    Except SqlError (EdgesTable × Nat) :=
  match db.rows.find? (fun e => e.source_id == sourceId && e.target_id == targetId
      && e.kind == kind && e.file_id == fileId) with
  | some row => .ok (db, row.id)
  | none =>
    match checkInsertColumns "edges" edgesTableColumns addEdgeInsertColumns with
    | .error err => .error err
    | .ok _ =>
      let row : EdgeRow :=
        { id := db.nextId, source_id := sourceId, target_id := targetId,
          kind := kind, file_id := fileId, metadata := metadata }
      .ok ({ rows := db.rows ++ [row], nextId := db.nextId + 1 }, db.nextId)

/-- C2: the claim states that for every stored schema version strictly greater
than the current supported version, connecting fails with a distinct
unsupported-future-version error and does not rewrite the stored version.  The
code instead accepts the future version: at stored version 2 (current is 1),
`_init_schema` returns successfully, silently rewrites `schema_version` down
to 1 and stamps `migrated_at`, so the connection proceeds to normal operation. -/
theorem C2_future_schema_version_not_rejected :
    initSchema [("schema_version", "2")] 7 =
      .ok [("schema_version", "1"), ("migrated_at", "7")] ∧
    getSchemaVersion [("schema_version", "1"), ("migrated_at", "7")] = SCHEMA_VERSION :=
  ⟨rfl, rfl⟩

/-- C7: the claim states `add_edge` idempotently maintains exactly one row per
(source, target, kind, file) tuple.  In fact no row can ever be inserted: when
no duplicate exists, the INSERT of `Database.add_edge` names the column
`confidence`, which `CREATE_TABLES_SQL` does not declare on `edges`, so SQLite
raises an OperationalError on every first-time insertion. -/
theorem C7_addEdge_insert_always_fails (db : EdgesTable) (s t : Nat) (k : String)
    (f : Nat) (c : ℚ) (md : Option EdgeMeta)
    (hnodup : db.rows.find? (fun e => e.source_id == s && e.target_id == t
      && e.kind == k && e.file_id == f) = none) :
    addEdge db s t k f c md = .error (.noSuchColumn "edges" "confidence") := by
  unfold addEdge
  rw [hnodup]
  rfl

/-- Witness for C7: on an empty edges table, inserting a call edge raises the
no-such-column error. -/
theorem C7_addEdge_insert_always_fails_witness :
    addEdge ⟨[], 1⟩ 2 3 "call" 1 1 none = .error (.noSuchColumn "edges" "confidence") :=
  C7_addEdge_insert_always_fails ⟨[], 1⟩ 2 3 "call" 1 1 none rfl

/-- C10: when the (source, target, kind, file) tuple already has a stored row,
`Database.add_edge` returns the existing row id through the duplicate-check
SELECT and leaves the whole edges table unchanged, for every value of the
`confidence` and `metadata` arguments; in particular the stored row's
`metadata` column (and every other column) keeps its prior value. -/
theorem C10_addEdge_duplicate_ignores_arguments (db : EdgesTable) (s t : Nat)
    (k : String) (f : Nat) (row : EdgeRow)
    (hdup : db.rows.find? (fun e => e.source_id == s && e.target_id == t
      && e.kind == k && e.file_id == f) = some row) :
    ∀ (c : ℚ) (md : Option EdgeMeta), addEdge db s t k f c md = .ok (db, row.id) := by
  intro c md
  unfold addEdge
  rw [hdup]

/-- Witness for C10: a table holding the tuple (2, 3, call, 1) with metadata
confidence 1/2; re-inserting with different confidence and metadata returns
the stored id 5 and the table is returned unchanged. -/
theorem C10_addEdge_duplicate_ignores_arguments_witness :
    addEdge ⟨[⟨5, 2, 3, "call", 1, some ⟨some (1/2)⟩⟩], 6⟩ 2 3 "call" 1 (9/10)
        (some ⟨some (3/4)⟩) =
      .ok (⟨[⟨5, 2, 3, "call", 1, some ⟨some (1/2)⟩⟩], 6⟩, 5) :=
  C10_addEdge_duplicate_ignores_arguments
    ⟨[⟨5, 2, 3, "call", 1, some ⟨some (1/2)⟩⟩], 6⟩ 2 3 "call" 1
    ⟨5, 2, 3, "call", 1, some ⟨some (1/2)⟩⟩ (by rfl) (9/10) (some ⟨some (3/4)⟩)

/-! ### Text utilities shared by the parser, token budgeter and pack models.
Python string operations are modelled over `List Char`; Python compares
strings lexicographically by code point, and its stable `sorted` is modelled
by the (stable) insertion sort. -/

/-- Python `c in s` membership of a character in a string. -/
def strContains (s : String) (c : Char) : Bool :=
  s.toList.any (fun d => d == c)

/-- Lexicographic code-point comparison of character lists (Python `<=` on `str`). -/
def charListLe : List Char → List Char → Bool
  | [], _ => true
  | _ :: _, [] => false
  | a :: as, b :: bs => if a == b then charListLe as bs else a.toNat < b.toNat

/-- Python string `<=`. -/
def pyStrLe (a b : String) : Bool :=
  charListLe a.toList b.toList

/-- Python `sorted` / `list.sort` with a boolean `key`-induced order: a stable
sort.  Modelled by insertion sort, which is stable for the same order. -/
def pySorted (le : α → α → Bool) (l : List α) : List α :=
  List.insertionSort (fun a b => le a b = true) l

/-- Splits a character list at every occurrence of a separator character
(Python `str.split(sep)` with a single-character separator). -/
def splitOnChar (sep : Char) : List Char → List (List Char)
  | [] => [[]]
  | c :: cs =>
    let rest := splitOnChar sep cs
    if c == sep then [] :: rest
    else
      match rest with
      | [] => [[c]]
      | r :: rs => (c :: r) :: rs

/-- Python `content.split(sep)` for a one-character separator, on strings. -/
def pySplit (s : String) (sep : Char) : List String :=
  (splitOnChar sep s.toList).map (fun l => String.mk l)

/-- Python `str.strip()`: removes leading and trailing whitespace. -/
def pyStripChars (l : List Char) : List Char :=
  ((l.dropWhile Char.isWhitespace).reverse.dropWhile Char.isWhitespace).reverse

/-- Python `str.strip()` on strings. -/
def pyStrip (s : String) : String :=
  String.mk (pyStripChars s.toList)

/-! ### Parser call-site confidence (parser.py) -/

/-- Start character of a Python identifier (regex class `[a-zA-Z_]`). -/
def isIdentStart (c : Char) : Bool :=
  c.isAlpha || c == '_'

/-- Word character (regex class `\w`, ASCII as used on source identifiers). -/
def isWordChar (c : Char) : Bool :=
  c.isAlphanum || c == '_'

/-- Match of `re.match(r'^[a-zA-Z_]\w*$', s)`: a simple identifier. -/
def isSimpleIdentifier (s : String) : Bool :=
  match s.toList with
  | [] => false
  | c :: cs => isIdentStart c && cs.all isWordChar

/-- TreeSitterParser._calculate_call_confidence: base 0.5, +0.2 when the
callee text contains a dot, +0.1 when it is a simple identifier, capped at 1.0. -/
def calculateCallConfidence (calleeText : String) : ℚ :=
  let confidence : ℚ := 5/10
  let confidence := if strContains calleeText '.' then confidence + 2/10 else confidence
  let confidence := if isSimpleIdentifier calleeText then confidence + 1/10 else confidence
  min confidence 1

/-- Confidence formula exactly as the specification words it (spec 4.3,
Callsite extraction): base 0.5, plus 0.2 if the callee text contains a `.`,
plus 0.1 if it matches a simple identifier pattern, clamped to 1.0. -/
def specCallConfidence (callee : String) : ℚ :=
  min ((5/10 : ℚ) + (if strContains callee '.' then 2/10 else 0)
        + (if isSimpleIdentifier callee then 1/10 else 0)) 1

/-- Parses `[a-zA-Z_]\w*` at the head of the input; returns the identifier and
the remaining characters. -/
def takeIdent : List Char → Option (List Char × List Char)
  | [] => none
  | c :: cs =>
    if isIdentStart c then some (c :: cs.takeWhile isWordChar, cs.dropWhile isWordChar)
    else none

/-- Consumes `(?:\.[a-zA-Z_]\w*)*` greedily after an already matched identifier
`acc`; returns the full dotted chain and the rest.  The fuel argument makes the
recursion structural; every step consumes at least two characters and spends
one fuel, so the fuel of `takeDotChain` below never runs out.  The regex
engine would backtrack over this star, but backtracking can never produce a
match here: after giving an element back the cursor rests on a `.`, which
neither `\s` nor `(` accepts, so greedy maximal munch is equivalent. -/
def takeDotChainAux : Nat → List Char → List Char → List Char × List Char
  | 0, acc, rest => (acc, rest)
  | fuel + 1, acc, rest =>
    match rest with
    | [] => (acc, [])
    | c :: cs =>
      if c = '.' then
        match takeIdent cs with
        | some (idChars, r2) => takeDotChainAux fuel (acc ++ c :: idChars) r2
        | none => (acc, c :: cs)
      else (acc, c :: cs)

/-- Dotted-chain consumption with its always-sufficient fuel. -/
def takeDotChain (acc rest : List Char) : List Char × List Char :=
  takeDotChainAux rest.length acc rest

/-- Attempts the regex `([a-zA-Z_]\w*(?:\.[a-zA-Z_]\w*)*)\s*\(` at the head of
the input (one candidate position of `re.finditer`); on success returns the
captured group and the characters after the consumed `(`. -/
def tryCallMatchAt (l : List Char) : Option (List Char × List Char) :=
  match takeIdent l with
  | none => none
  | some (idChars, r) =>
    let chainState := takeDotChain idChars r
    match chainState.2.dropWhile Char.isWhitespace with
    | [] => none
    | c :: r4 => if c = '(' then some (chainState.1, r4) else none

/-- Scan of `call_re.finditer(line)` with structural fuel: tries each position
left to right and, after a match, resumes after the consumed text, collecting
`group(1)` of every match.  A successful match consumes at least two
characters and a failure advances one, while fuel decreases by one, so fuel
equal to the length of the line (see `findCalls`) never runs out. -/
def findCallsAux : Nat → List Char → List String
  | 0, _ => []
  | fuel + 1, l =>
    match l with
    | [] => []
    | c :: cs =>
      match tryCallMatchAt (c :: cs) with
      | some (g, rest) => String.mk g :: findCallsAux fuel rest
      | none => findCallsAux fuel cs

/-- Finds all `call_re` matches in a line. -/
def findCalls (l : List Char) : List String :=
  findCallsAux l.length l

/-- Tests whether the input begins with the given keyword, returning the rest. -/
def keywordAt (kw : List Char) (l : List Char) : Option (List Char) :=
  if l.take kw.length == kw then some (l.drop kw.length) else none

/-- Tests `def\s+[a-zA-Z_]` at the given position (the part of `func_re` that
decides whether the regex matches at all). -/
def defAt (l : List Char) : Bool :=
  match keywordAt ("def".toList) l with
  | none => false
  | some r =>
    (r.takeWhile Char.isWhitespace).length ≥ 1 &&
      (match r.dropWhile Char.isWhitespace with
       | c :: _ => isIdentStart c
       | [] => false)

/-- Match test of `func_re = re.match(r'^\s*(?:async\s+)?def\s+([a-zA-Z_]\w*)', line)`. -/
def matchesFuncDef (line : String) : Bool :=
  let l := line.toList.dropWhile Char.isWhitespace
  let withAsync :=
    match keywordAt ("async".toList) l with
    | some r =>
      if (r.takeWhile Char.isWhitespace).length ≥ 1 then
        defAt (r.dropWhile Char.isWhitespace)
      else false
    | none => false
  withAsync || defAt l

/-- Match test of `class_re = re.match(r'^\s*class\s+([a-zA-Z_]\w*)', line)`. -/
def matchesClassDef (line : String) : Bool :=
  let l := line.toList.dropWhile Char.isWhitespace
  match keywordAt ("class".toList) l with
  | none => false
  | some r =>
    (r.takeWhile Char.isWhitespace).length ≥ 1 &&
      (match r.dropWhile Char.isWhitespace with
       | c :: _ => isIdentStart c
       | [] => false)

/-- Call site as emitted by the parser fallback: callee text, 1-indexed line,
and assigned confidence. -/
structure CallsiteM where
  callee_text : String
  line : Nat
  confidence : ℚ
deriving Repr, DecidableEq

/-- Call sites that one line of `TreeSitterParser._regex_parse_fallback`
(Python branch) emits: lines matching the class or def regex `continue` past
the call scan; otherwise each `call_re` match yields a `Callsite` whose
confidence is 0.6 when the callee contains a dot and 0.3 otherwise. -/
def lineCallsites (lineNum : Nat) (line : String) : List CallsiteM :=
  if matchesClassDef line then []
  else if matchesFuncDef line then []
  else
    (findCalls line.toList).map (fun callee =>
      { callee_text := callee, line := lineNum,
        confidence := if strContains callee '.' then 6/10 else 3/10 })

/-- Call sites emitted by `TreeSitterParser._regex_parse_fallback` for Python
content: early return on whitespace-only content, then a line-by-line scan. -/
def regexFallbackCallsites (content : String) : List CallsiteM :=
  if content.toList.all Char.isWhitespace then []
  else
    ((pySplit content '\n').enum).flatMap (fun p => lineCallsites (p.1 + 1) p.2)

/-- C8: the claim states that EVERY Callsite emitted by the parser carries the
confidence 0.5 (+0.2 for a dotted callee, +0.1 for a simple identifier,
clamped to 1.0).  Counterexample: when tree-sitter fails, the parser falls
back to `_regex_parse_fallback`, which emits call sites with a different
scheme (0.6 for dotted callees, 0.3 otherwise): on content `f()` it emits the
callee `f` with confidence 0.3, whereas the claimed formula assigns
0.5 + 0.1 = 0.6. -/
theorem C8_regex_fallback_counterexample :
    regexFallbackCallsites "f()" = [⟨"f", 1, 3/10⟩] ∧
    specCallConfidence "f" = 6/10 ∧ (3/10 : ℚ) ≠ 6/10 := by
  refine ⟨?_, ?_, by norm_num⟩
  · simp +decide [regexFallbackCallsites, pySplit, splitOnChar, lineCallsites,
      findCalls, findCallsAux, tryCallMatchAt, takeIdent, takeDotChain, takeDotChainAux]
  · simp +decide only [specCallConfidence, strContains, isSimpleIdentifier,
      isIdentStart, isWordChar]
    norm_num [min_def]

/-- C8 amended: call sites emitted through the tree-sitter extraction paths
(`extract_callsites` and `_fallback_callsite_extraction`) carry the confidence
computed by `_calculate_call_confidence`, which equals the claimed formula
base 0.5, +0.2 for a dotted callee, +0.1 for a simple identifier, clamped at
1.0; call sites emitted by the regex fallback `_regex_parse_fallback` instead
carry 0.6 when the callee text contains a dot and 0.3 otherwise. -/
theorem C8_call_confidence_amended :
    (∀ callee : String, calculateCallConfidence callee = specCallConfidence callee) ∧
    (∀ (content : String) (cs : CallsiteM), cs ∈ regexFallbackCallsites content →
      cs.confidence = if strContains cs.callee_text '.' then 6/10 else 3/10) := by
  constructor
  · intro callee
    simp only [calculateCallConfidence, specCallConfidence]
    by_cases hdot : strContains callee '.' <;>
      by_cases hsimple : isSimpleIdentifier callee <;>
        simp [hdot, hsimple]
  · intro content cs h
    unfold regexFallbackCallsites at h
    split at h
    · simp at h
    · rw [List.mem_flatMap] at h
      obtain ⟨p, _, hmem⟩ := h
      unfold lineCallsites at hmem
      split at hmem
      · simp at hmem
      · split at hmem
        · simp at hmem
        · rw [List.mem_map] at hmem
          obtain ⟨callee, _, rfl⟩ := hmem
          simp

/-- Witness for C8 amended: the confidence function agrees with the spec
formula on the dotted callee `a.b`, and the call site the regex fallback emits
for `g()` carries the fallback confidence 0.3 (its callee has no dot). -/
theorem C8_call_confidence_amended_witness :
    calculateCallConfidence "a.b" = specCallConfidence "a.b" ∧
    (⟨"g", 1, 3/10⟩ : CallsiteM).confidence =
      (if strContains (CallsiteM.callee_text ⟨"g", 1, 3/10⟩) '.' then 6/10 else 3/10) :=
  ⟨C8_call_confidence_amended.1 "a.b",
   C8_call_confidence_amended.2 "g()" ⟨"g", 1, 3/10⟩ (by
     simp +decide [regexFallbackCallsites, pySplit, splitOnChar, lineCallsites,
       findCalls, findCallsAux, tryCallMatchAt, takeIdent, takeDotChain, takeDotChainAux])⟩

/-! ### Graph engine (graph.py) -/

/-- Symbol row as the graph engine reads it: `_get_symbol` joins `symbols`
with `files` to attach the file path, so a `GraphDb` carries the joined view
(symbols whose file row is missing are absent, as the inner JOIN drops them). -/
structure SymRow where
  id : Nat
  name : String
  kind : String
  file_path : String
  line_start : Nat
deriving Repr, DecidableEq

/-- GraphNode of graph.py: a node of the dependency graph with its aggregated
confidence and the hop distance at which it was first seen. -/
structure GraphNode where
  symbol_id : Nat
  name : String
  kind : String
  file_path : String
  line_start : Nat
  confidence : ℚ
  path_depth : Nat
deriving Repr, DecidableEq

/-- Store view used by the graph engine: the symbol rows (joined with file
paths) and the edge rows in table (insertion) order. -/
structure GraphDb where
  symbols : List SymRow
  edges : List EdgeRow
deriving Repr, DecidableEq

/-- GraphEngine._extract_confidence: default 0.8, overridden by a `confidence`
key in the edge metadata, then floored at 0.9 for `call` edges and 0.85 for
`import` edges, and capped at 1.0. -/
def extractConfidence (e : EdgeRow) : ℚ :=
  let confidence : ℚ := 8/10
  let confidence :=
    match e.metadata with
    | some md =>
      match md.confidence with
      | some c => c
      | none => confidence
    | none => confidence
  let confidence :=
    if e.kind == "call" then max confidence (9/10)
    else if e.kind == "import" then max confidence (85/100)
    else confidence
  min confidence 1

/-- Sort key of graph.py `callers`/`callees`: Python
`sorted(results.values(), key=lambda n: (-n.confidence, n.name))`, i.e.
confidence descending then name ascending; `nodeLe` is the corresponding
total boolean order on nodes. -/
def nodeLe (a b : GraphNode) : Bool :=
  if b.confidence < a.confidence then true
  else if a.confidence = b.confidence then pyStrLe a.name b.name
  else false

/-- Inner edge loop shared verbatim by `GraphEngine.callers` and
`GraphEngine.callees` (graph.py duplicates the loop body; `endpoint` is
`edge['source_id']` for callers and `edge['target_id']` for callees): skip the
originating symbol, skip ids already in the results dict, aggregate confidence
multiplicatively, drop nodes below the threshold or without a symbol row, and
otherwise record the node and enqueue it.  Returns the updated results (in
dict insertion order) and the items to append to the BFS queue, in edge order. -/
def processNeighbors (db : GraphDb) (origin : Nat) (minConf : ℚ)
    (currentDepth : Nat) (currentConf : ℚ) (endpoint : EdgeRow → Nat) :
    List EdgeRow → List GraphNode → List GraphNode × List (Nat × Nat × ℚ)
  | [], results => (results, [])
  | e :: es, results =>
    let nid := endpoint e
    if nid = origin then
      processNeighbors db origin minConf currentDepth currentConf endpoint es results
    else if results.any (fun n => n.symbol_id == nid) then
      processNeighbors db origin minConf currentDepth currentConf endpoint es results
    else
      let edgeConf := extractConfidence e
      let aggConf := currentConf * edgeConf
      if aggConf < minConf then
        processNeighbors db origin minConf currentDepth currentConf endpoint es results
      else
        match db.symbols.find? (fun s => s.id == nid) with
        | none =>
          processNeighbors db origin minConf currentDepth currentConf endpoint es results
        | some s =>
          let node : GraphNode :=
            ⟨nid, s.name, s.kind, s.file_path, s.line_start, aggConf, currentDepth + 1⟩
          let rest := processNeighbors db origin minConf currentDepth currentConf endpoint
            es (results ++ [node])
          (rest.1, (nid, currentDepth + 1, aggConf) :: rest.2)

/-- BFS loop shared by `GraphEngine.callers` and `GraphEngine.callees`:
`neighbors` is `get_incoming_edges` for callers and `get_outgoing_edges` for
callees.  The deque is a list popped at the head; the fuel argument counts
loop iterations and returns `none` when exhausted, so termination of the
Python `while queue` loop is exactly the claim that enough fuel exists. -/
def graphBFS (db : GraphDb) (origin : Nat) (depth : Nat) (minConf : ℚ)
    (neighbors : Nat → List EdgeRow) (endpoint : EdgeRow → Nat) :
    Nat → List (Nat × Nat × ℚ) → List GraphNode → Option (List GraphNode)
  | _, [], results => some results
  | 0, _ :: _, _ => none
  | fuel + 1, (currentId, currentDepth, currentConf) :: rest, results =>
    if currentDepth ≥ depth then
      graphBFS db origin depth minConf neighbors endpoint fuel rest results
    else
      let step := processNeighbors db origin minConf currentDepth currentConf endpoint
        (neighbors currentId) results
      graphBFS db origin depth minConf neighbors endpoint fuel (rest ++ step.2) step.1

/-- Database.get_incoming_edges: edges targeting the symbol, in table order
(the SELECT has no ORDER BY; SQLite returns insertion order here). -/
def getIncomingEdges (db : GraphDb) (symbolId : Nat) : List EdgeRow :=
  db.edges.filter (fun e => e.target_id == symbolId)

/-- Database.get_outgoing_edges: edges originating at the symbol, in table order. -/
def getOutgoingEdges (db : GraphDb) (symbolId : Nat) : List EdgeRow :=
  db.edges.filter (fun e => e.source_id == symbolId)

/-- GraphEngine.callers with explicit fuel: BFS over incoming edges starting
from `[(symbol_id, 0, 1.0)]`, then the stable sort by (-confidence, name).
The chosen fuel `2 * |edges| + 2` always suffices (proved for the claims
below): every queue entry beyond the start is paired with a new distinct
results id drawn from the edge sources. -/
def callersBFS (db : GraphDb) (origin : Nat) (depth : Nat) (minConf : ℚ) :
    Option (List GraphNode) :=
  (graphBFS db origin depth minConf (getIncomingEdges db) (fun e => e.source_id)
      (2 * db.edges.length + 2) [(origin, 0, 1)] []).map
    (fun results => pySorted nodeLe results)

/-- GraphEngine.callees with explicit fuel: BFS over outgoing edges. -/
def calleesBFS (db : GraphDb) (origin : Nat) (depth : Nat) (minConf : ℚ) :
    Option (List GraphNode) :=
  (graphBFS db origin depth minConf (getOutgoingEdges db) (fun e => e.target_id)
      (2 * db.edges.length + 2) [(origin, 0, 1)] []).map
    (fun results => pySorted nodeLe results)

/-- GraphEngine._resolve_symbol: exact name first, then the last dotted part.
Python `parts[-1]` on the non-empty result of `split('.')` is modelled with a
default that is never taken. -/
def resolveSymbol (db : GraphDb) (qualifiedName : String) : Option Nat :=
  match db.symbols.find? (fun s => s.name == qualifiedName) with
  | some s => some s.id
  | none =>
    let parts := pySplit qualifiedName '.'
    if parts.length > 1 then
      match db.symbols.find? (fun s => s.name == (parts.getLast?).getD "") with
      | some s => some s.id
      | none => none
    else none

/-- GraphEngine.callers on a string target: an unresolved name returns `[]`. -/
def callersByName (db : GraphDb) (name : String) (depth : Nat) (minConf : ℚ) :
    Option (List GraphNode) :=
  match resolveSymbol db name with
  | none => some []
  | some id => callersBFS db id depth minConf

/-- GraphEngine.callees on a string target: an unresolved name returns `[]`. -/
def calleesByName (db : GraphDb) (name : String) (depth : Nat) (minConf : ℚ) :
    Option (List GraphNode) :=
  match resolveSymbol db name with
  | none => some []
  | some id => calleesBFS db id depth minConf

/-- Characterisation of one pass of the edge loop: results grow by a block of
new nodes whose ids are distinct, drawn from the endpoints of the processed
edges, different from the origin and not previously present; the queue gains
exactly one item per new node. -/
theorem processNeighbors_spec (db : GraphDb) (origin : Nat) (minConf : ℚ)
    (currentDepth : Nat) (currentConf : ℚ) (endpoint : EdgeRow → Nat) :
    ∀ (es : List EdgeRow) (results : List GraphNode),
      ∃ added : List GraphNode,
        (processNeighbors db origin minConf currentDepth currentConf endpoint es results).1
          = results ++ added ∧
        (processNeighbors db origin minConf currentDepth currentConf endpoint es results).2.length
          = added.length ∧
        (added.map (fun n => n.symbol_id)).Nodup ∧
        ∀ n ∈ added, n.symbol_id ∈ es.map endpoint ∧ n.symbol_id ≠ origin ∧
          n.symbol_id ∉ results.map (fun m => m.symbol_id) := by
  intro es
  induction es with
  | nil =>
    intro results
    exact ⟨[], by simp [processNeighbors], by simp [processNeighbors], by simp, by simp⟩
  | cons e es ih =>
    intro results
    simp only [processNeighbors]
    split
    · obtain ⟨added, h1, h2, h3, h4⟩ := ih results
      exact ⟨added, h1, h2, h3, fun n hn =>
        ⟨List.mem_cons_of_mem _ ((h4 n hn).1), (h4 n hn).2⟩⟩
    · split
      · obtain ⟨added, h1, h2, h3, h4⟩ := ih results
        exact ⟨added, h1, h2, h3, fun n hn =>
          ⟨List.mem_cons_of_mem _ ((h4 n hn).1), (h4 n hn).2⟩⟩
      · split
        · obtain ⟨added, h1, h2, h3, h4⟩ := ih results
          exact ⟨added, h1, h2, h3, fun n hn =>
            ⟨List.mem_cons_of_mem _ ((h4 n hn).1), (h4 n hn).2⟩⟩
        · split
          · obtain ⟨added, h1, h2, h3, h4⟩ := ih results
            exact ⟨added, h1, h2, h3, fun n hn =>
              ⟨List.mem_cons_of_mem _ ((h4 n hn).1), (h4 n hn).2⟩⟩
          · rename_i hnorigin hnotin hconf hdiscr s hfind
            obtain ⟨added, h1, h2, h3, h4⟩ := ih (results ++
              [⟨endpoint e, s.name, s.kind, s.file_path, s.line_start,
                currentConf * extractConfidence e, currentDepth + 1⟩])
            refine ⟨⟨endpoint e, s.name, s.kind, s.file_path, s.line_start,
              currentConf * extractConfidence e, currentDepth + 1⟩ :: added, ?_, ?_, ?_, ?_⟩
            · simp [h1]
            · simp [h2]
            · simp only [List.map_cons, List.nodup_cons]
              refine ⟨?_, h3⟩
              intro hmem
              rw [List.mem_map] at hmem
              obtain ⟨n, hn, hid⟩ := hmem
              have := (h4 n hn).2.2
              simp [← hid] at this
            · intro n hn
              rcases List.mem_cons.mp hn with hn | hn
              · subst hn
                refine ⟨by simp, hnorigin, ?_⟩
                intro hmem
                apply hnotin
                rw [List.mem_map] at hmem
                obtain ⟨m, hm, hid⟩ := hmem
                exact List.any_eq_true.mpr ⟨m, hm, by simp [hid]⟩
              · have h := h4 n hn
                refine ⟨List.mem_cons_of_mem _ h.1, h.2.1, ?_⟩
                intro hmem
                exact h.2.2 (by simp [hmem])

/-- Shows that a duplicate-free list of naturals drawn from a finite pool is
no longer than the pool. -/
theorem nodup_length_le_pool {l : List Nat} {pool : Finset Nat} (hnd : l.Nodup)
    (hsub : ∀ x ∈ l, x ∈ pool) : l.length ≤ pool.card := by
  rw [← List.toFinset_card_of_nodup hnd]
  exact Finset.card_le_card (fun x hx => hsub x (List.mem_toFinset.mp hx))

/-- Termination of the BFS loop: the fuel never runs out once it exceeds the
queue length plus twice the number of ids that can still be discovered,
because every iteration pops one queue entry and every enqueued entry is paid
for by a fresh results id drawn from the endpoint pool. -/
theorem graphBFS_some (db : GraphDb) (origin : Nat) (depth : Nat) (minConf : ℚ)
    (neighbors : Nat → List EdgeRow) (endpoint : EdgeRow → Nat)
    (pool : Finset Nat)
    (hnb : ∀ id, ∀ e ∈ neighbors id, endpoint e ∈ pool) :
    ∀ (fuel : Nat) (queue : List (Nat × Nat × ℚ)) (results : List GraphNode),
      (results.map (fun n => n.symbol_id)).Nodup →
      (∀ n ∈ results, n.symbol_id ∈ pool) →
      queue.length + 2 * (pool.card - results.length) < fuel →
      (graphBFS db origin depth minConf neighbors endpoint fuel queue results).isSome := by
  intro fuel
  induction fuel with
  | zero => intro queue results _ _ h; omega
  | succ fuel ih =>
    intro queue results hnodup hpool hm
    match queue with
    | [] => simp [graphBFS]
    | (cid, cdepth, cconf) :: rest =>
      have hR : results.length ≤ pool.card := by
        have := nodup_length_le_pool hnodup (by
          intro x hx
          rw [List.mem_map] at hx
          obtain ⟨n, hn, hid⟩ := hx
          exact hid ▸ hpool n hn)
        simpa using this
      rw [graphBFS]
      split
      · apply ih rest results hnodup hpool
        simp only [List.length_cons] at hm
        omega
      · obtain ⟨added, h1, h2, h3, h4⟩ := processNeighbors_spec db origin minConf cdepth
          cconf endpoint (neighbors cid) results
        have haddpool : ∀ n ∈ added, n.symbol_id ∈ pool := by
          intro n hn
          have := (h4 n hn).1
          rw [List.mem_map] at this
          obtain ⟨e, he, hid⟩ := this
          exact hid ▸ hnb cid e he
        have hnodup2 : ((results ++ added).map (fun n => n.symbol_id)).Nodup := by
          rw [List.map_append, List.nodup_append]
          refine ⟨hnodup, h3, ?_⟩
          intro x hx hy
          rw [List.mem_map] at hy
          obtain ⟨n, hn, hid⟩ := hy
          exact (h4 n hn).2.2 (hid ▸ hx)
        have hpool2 : ∀ n ∈ results ++ added, n.symbol_id ∈ pool := by
          intro n hn
          rcases List.mem_append.mp hn with hn | hn
          · exact hpool n hn
          · exact haddpool n hn
        have hRA : results.length + added.length ≤ pool.card := by
          have := nodup_length_le_pool hnodup2 (by
            intro x hx
            rw [List.mem_map] at hx
            obtain ⟨n, hn, hid⟩ := hx
            exact hid ▸ hpool2 n hn)
          simpa using this
        have hgoal := ih (rest ++ (processNeighbors db origin minConf cdepth cconf endpoint
            (neighbors cid) results).2) (results ++ added) hnodup2 hpool2 (by
          simp only [List.length_append, List.length_cons, h2] at hm ⊢
          omega)
        dsimp only
        rw [h1]
        exact hgoal

/-- Shows that the BFS never records the originating symbol: the edge loop
skips any edge whose relevant endpoint equals the origin. -/
theorem graphBFS_no_origin (db : GraphDb) (origin : Nat) (depth : Nat) (minConf : ℚ)
    (neighbors : Nat → List EdgeRow) (endpoint : EdgeRow → Nat) :
    ∀ (fuel : Nat) (queue : List (Nat × Nat × ℚ)) (results : List GraphNode),
      (∀ n ∈ results, n.symbol_id ≠ origin) →
      ∀ l, graphBFS db origin depth minConf neighbors endpoint fuel queue results = some l →
        ∀ n ∈ l, n.symbol_id ≠ origin := by
  intro fuel
  induction fuel with
  | zero =>
    intro queue results hres l hl
    match queue with
    | [] =>
      rw [graphBFS] at hl
      cases hl
      exact hres
    | q :: rest => rw [graphBFS] at hl; cases hl
  | succ fuel ih =>
    intro queue results hres l hl
    match queue with
    | [] =>
      rw [graphBFS] at hl
      cases hl
      exact hres
    | (cid, cdepth, cconf) :: rest =>
      rw [graphBFS] at hl
      split at hl
      · exact ih rest results hres l hl
      · obtain ⟨added, h1, h2, h3, h4⟩ := processNeighbors_spec db origin minConf cdepth
          cconf endpoint (neighbors cid) results
        refine ih _ _ ?_ l hl
        rw [h1]
        intro n hn
        rcases List.mem_append.mp hn with hn | hn
        · exact hres n hn
        · exact (h4 n hn).2.1

/-- C5: in every edge graph containing a two-node cycle A to B and B to A,
`callers(A, depth=10)` terminates (the BFS visited-set bookkeeping bounds the
loop) and its result does not contain the originating symbol A. -/
theorem C5_cycle_callers_terminate (db : GraphDb) (A B : Nat)
    (hAB : ∃ e ∈ db.edges, e.source_id = A ∧ e.target_id = B)
    (hBA : ∃ e ∈ db.edges, e.source_id = B ∧ e.target_id = A) :
    ∃ l, callersBFS db A 10 0 = some l ∧ ∀ n ∈ l, n.symbol_id ≠ A := by
  have hpoolcard : ((db.edges.map (fun e => e.source_id)).toFinset).card ≤ db.edges.length := by
    calc ((db.edges.map (fun e => e.source_id)).toFinset).card
        ≤ (db.edges.map (fun e => e.source_id)).length := List.toFinset_card_le _
      _ = db.edges.length := List.length_map _ _
  have hsome := graphBFS_some db A 10 0 (getIncomingEdges db) (fun e => e.source_id)
    ((db.edges.map (fun e => e.source_id)).toFinset)
    (by
      intro id e he
      rw [List.mem_toFinset, List.mem_map]
      exact ⟨e, List.mem_of_mem_filter he, rfl⟩)
    (2 * db.edges.length + 2) [(A, 0, 1)] [] (by simp) (by simp)
    (by simp only [List.length_cons, List.length_nil]; omega)
  rw [Option.isSome_iff_exists] at hsome
  obtain ⟨res, hres⟩ := hsome
  refine ⟨pySorted nodeLe res, ?_, ?_⟩
  · rw [callersBFS, hres]
    rfl
  · intro n hn
    have hmem : n ∈ res := by
      have hperm := List.perm_insertionSort (fun a b => nodeLe a b = true) res
      exact hperm.mem_iff.mp hn
    exact graphBFS_no_origin db A 10 0 (getIncomingEdges db) (fun e => e.source_id)
      (2 * db.edges.length + 2) [(A, 0, 1)] [] (by simp) res hres n hmem

/-- Characters with equal code points are equal. -/
theorem char_toNat_inj {a b : Char} (h : a.toNat = b.toNat) : a = b := by
  have h0 : a.val.toBitVec.toNat = b.val.toBitVec.toNat := h
  have h2 : a.val.toBitVec = b.val.toBitVec := BitVec.toNat_injective h0
  have h3 : a.val = b.val := by
    cases av : a.val
    cases bv : b.val
    simp_all
  exact Char.ext h3

/-- Totality of the code-point comparison. -/
theorem charListLe_total : ∀ x y : List Char, charListLe x y = true ∨ charListLe y x = true := by
  intro x
  induction x with
  | nil => intro y; left; rfl
  | cons a as ih =>
    intro y
    cases y with
    | nil => right; rfl
    | cons b bs =>
      by_cases hab : a = b
      · subst hab
        simp only [charListLe, beq_self_eq_true, if_pos]
        exact ih bs
      · have hne : a.toNat ≠ b.toNat := fun h => hab (char_toNat_inj h)
        have hba : ¬ b = a := fun h => hab h.symm
        simp only [charListLe, beq_iff_eq, if_neg hab, if_neg hba, decide_eq_true_eq]
        omega

/-- Transitivity of the code-point comparison. -/
theorem charListLe_trans : ∀ x y z : List Char, charListLe x y = true →
    charListLe y z = true → charListLe x z = true := by
  intro x
  induction x with
  | nil => intro y z _ _; rfl
  | cons a as ih =>
    intro y z hxy hyz
    cases y with
    | nil => simp [charListLe] at hxy
    | cons b bs =>
      cases z with
      | nil => simp [charListLe] at hyz
      | cons c cs =>
        by_cases hab : a = b <;> by_cases hbc : b = c
        · subst hab; subst hbc
          simp only [charListLe, beq_self_eq_true, if_pos] at hxy hyz ⊢
          exact ih bs cs hxy hyz
        · subst hab
          simp only [charListLe, beq_iff_eq, if_neg hbc] at hyz
          simp only [charListLe, beq_iff_eq, if_neg hbc]
          exact hyz
        · subst hbc
          simp only [charListLe, beq_iff_eq, if_neg hab] at hxy
          simp only [charListLe, beq_iff_eq, if_neg hab]
          exact hxy
        · simp only [charListLe, beq_iff_eq, if_neg hab] at hxy
          simp only [charListLe, beq_iff_eq, if_neg hbc] at hyz
          by_cases hac : a = c
          · subst hac
            simp only [decide_eq_true_eq] at hxy hyz
            omega
          · simp only [charListLe, beq_iff_eq, if_neg hac, decide_eq_true_eq] at hxy hyz ⊢
            omega

/-- Antisymmetry of the code-point comparison. -/
theorem charListLe_antisymm : ∀ x y : List Char, charListLe x y = true →
    charListLe y x = true → x = y := by
  intro x
  induction x with
  | nil =>
    intro y _ hyx
    cases y with
    | nil => rfl
    | cons b bs => simp [charListLe] at hyx
  | cons a as ih =>
    intro y hxy hyx
    cases y with
    | nil => simp [charListLe] at hxy
    | cons b bs =>
      by_cases hab : a = b
      · subst hab
        simp only [charListLe, beq_self_eq_true, if_pos] at hxy hyx
        rw [ih bs hxy hyx]
      · have hba : ¬ b = a := fun h => hab h.symm
        simp only [charListLe, beq_iff_eq, if_neg hab, if_neg hba,
          decide_eq_true_eq] at hxy hyx
        omega

/-- Totality of the sort key order of graph.py. -/
theorem nodeLe_total (a b : GraphNode) : nodeLe a b = true ∨ nodeLe b a = true := by
  unfold nodeLe
  rcases lt_trichotomy a.confidence b.confidence with h | h | h
  · right; rw [if_pos h]
  · rw [if_neg (by rw [h]; exact lt_irrefl _), if_pos h,
      if_neg (by rw [h]; exact lt_irrefl _), if_pos h.symm]
    exact charListLe_total a.name.toList b.name.toList
  · left; rw [if_pos h]

/-- Transitivity of the sort key order of graph.py. -/
theorem nodeLe_trans (a b c : GraphNode) (hab : nodeLe a b = true)
    (hbc : nodeLe b c = true) : nodeLe a c = true := by
  unfold nodeLe at hab hbc ⊢
  by_cases h1 : b.confidence < a.confidence <;>
    by_cases h2 : c.confidence < b.confidence
  · rw [if_pos (h2.trans h1)]
  · rw [if_neg h2] at hbc
    split at hbc
    · rename_i heq
      rw [if_pos (heq ▸ h1)]
    · exact absurd hbc (by simp)
  · rw [if_neg h1] at hab
    split at hab
    · rename_i heq
      rw [if_pos (heq.symm ▸ h2)]
    · exact absurd hab (by simp)
  · rw [if_neg h1] at hab
    rw [if_neg h2] at hbc
    split at hab
    · split at hbc
      · rename_i hac hcb
        rw [if_neg (by rw [hac, hcb]; exact lt_irrefl _), if_pos (hac.trans hcb)]
        exact charListLe_trans _ _ _ hab hbc
      · exact absurd hbc (by simp)
    · exact absurd hab (by simp)

/-- Antisymmetry of the sort key order on nodes with distinct names. -/
theorem nodeLe_antisymm (a b : GraphNode) (hab : nodeLe a b = true)
    (hba : nodeLe b a = true) : a.confidence = b.confidence ∧ a.name = b.name := by
  unfold nodeLe at hab hba
  by_cases h1 : b.confidence < a.confidence
  · rw [if_neg (lt_asymm h1)] at hba
    split at hba
    · rename_i heq
      exact absurd h1 (heq ▸ lt_irrefl _)
    · exact absurd hba (by simp)
  · rw [if_neg h1] at hab
    split at hab
    · rename_i heq
      rw [if_neg (heq ▸ h1), if_pos heq.symm] at hba
      refine ⟨heq, ?_⟩
      unfold pyStrLe at hab hba
      exact String.ext (charListLe_antisymm _ _ hab hba)
    · exact absurd hab (by simp)

/-- Shows that every item the edge loop enqueues carries depth
`currentDepth + 1`. -/
theorem processNeighbors_items_depth (db : GraphDb) (origin : Nat) (minConf : ℚ)
    (currentDepth : Nat) (currentConf : ℚ) (endpoint : EdgeRow → Nat) :
    ∀ (es : List EdgeRow) (results : List GraphNode),
      ∀ it ∈ (processNeighbors db origin minConf currentDepth currentConf endpoint
        es results).2, it.2.1 = currentDepth + 1 := by
  intro es
  induction es with
  | nil => intro results it hit; simp [processNeighbors] at hit
  | cons e es ih =>
    intro results it hit
    simp only [processNeighbors] at hit
    split at hit
    · exact ih results it hit
    · split at hit
      · exact ih results it hit
      · split at hit
        · exact ih results it hit
        · split at hit
          · exact ih results it hit
          · dsimp only at hit
            rcases List.mem_cons.mp hit with h | h
            · rw [h]
            · exact ih _ it h

/-- Shows that the BFS loop drains a queue of items at or beyond the depth
bound without touching the results. -/
theorem graphBFS_drain (db : GraphDb) (origin : Nat) (depth : Nat) (minConf : ℚ)
    (neighbors : Nat → List EdgeRow) (endpoint : EdgeRow → Nat) :
    ∀ (fuel : Nat) (queue : List (Nat × Nat × ℚ)) (results : List GraphNode),
      (∀ it ∈ queue, depth ≤ it.2.1) → queue.length < fuel →
      graphBFS db origin depth minConf neighbors endpoint fuel queue results =
        some results := by
  intro fuel
  induction fuel with
  | zero => intro queue results _ h; omega
  | succ fuel ih =>
    intro queue results hq hlen
    match queue with
    | [] => rw [graphBFS]
    | (cid, cdepth, cconf) :: rest =>
      rw [graphBFS]
      have : cdepth ≥ depth := hq (cid, cdepth, cconf) (List.mem_cons_self _ _)
      rw [if_pos this]
      exact ih rest results (fun it hit => hq it (List.mem_cons_of_mem _ hit))
        (by simp only [List.length_cons] at hlen; omega)

/-- Evaluation of the BFS at depth 1: the queue starts with the origin at
depth 0, one pass of the edge loop runs, and every enqueued item is then at
the depth bound, so the results are exactly the nodes of that single pass. -/
theorem graphBFS_depth_one (db : GraphDb) (X : Nat) (minConf : ℚ)
    (neighbors : Nat → List EdgeRow) (endpoint : EdgeRow → Nat)
    (hlen : (neighbors X).length ≤ db.edges.length) :
    graphBFS db X 1 minConf neighbors endpoint (2 * db.edges.length + 2)
      [(X, 0, 1)] [] =
      some (processNeighbors db X minConf 0 1 endpoint (neighbors X) []).1 := by
  rw [graphBFS]
  rw [if_neg (by omega)]
  dsimp only
  rw [List.nil_append]
  obtain ⟨added, h1, h2, h3, h4⟩ := processNeighbors_spec db X minConf 0 1 endpoint
    (neighbors X) []
  have haddlen : added.length ≤ (neighbors X).length := by
    have hle := @nodup_length_le_pool (added.map (fun n => n.symbol_id))
      (((neighbors X).map endpoint).toFinset) h3 (by
        intro x hx
        rw [List.mem_map] at hx
        obtain ⟨n, hn, hid⟩ := hx
        rw [List.mem_toFinset]
        exact hid ▸ (h4 n hn).1)
    have hcard : (((neighbors X).map endpoint).toFinset).card ≤ (neighbors X).length := by
      calc (((neighbors X).map endpoint).toFinset).card
          ≤ ((neighbors X).map endpoint).length := List.toFinset_card_le _
        _ = (neighbors X).length := List.length_map _ _
    rw [List.length_map] at hle
    omega
  apply graphBFS_drain
  · intro it hit
    have := processNeighbors_items_depth db X minConf 0 1 endpoint (neighbors X) [] it hit
    omega
  · rw [h2]
    omega

/-- Membership characterisation of one pass of the edge loop under
endpoint-injectivity of the processed edges (no parallel edges with the same
relevant endpoints): a node is in the output iff it was already present, or
its id is fresh and some edge of the pass produces exactly this node. -/
theorem processNeighbors_mem (db : GraphDb) (origin : Nat) (minConf : ℚ)
    (currentDepth : Nat) (currentConf : ℚ) (endpoint : EdgeRow → Nat) :
    ∀ (es : List EdgeRow) (results : List GraphNode),
      (∀ e1 ∈ es, ∀ e2 ∈ es, endpoint e1 = endpoint e2 → e1 = e2) →
      ∀ n, n ∈ (processNeighbors db origin minConf currentDepth currentConf endpoint
          es results).1 ↔
        n ∈ results ∨
        (n.symbol_id ∉ results.map (fun m => m.symbol_id) ∧
          ∃ e ∈ es, endpoint e ≠ origin ∧
            ¬(currentConf * extractConfidence e < minConf) ∧
            ∃ s, db.symbols.find? (fun t => t.id == endpoint e) = some s ∧
              n = ⟨endpoint e, s.name, s.kind, s.file_path, s.line_start,
                currentConf * extractConfidence e, currentDepth + 1⟩) := by
  intro es
  induction es with
  | nil =>
    intro results hinj n
    simp [processNeighbors]
  | cons e es ih =>
    intro results hinj n
    have hinj2 : ∀ e1 ∈ es, ∀ e2 ∈ es, endpoint e1 = endpoint e2 → e1 = e2 :=
      fun e1 h1 e2 h2 => hinj e1 (List.mem_cons_of_mem _ h1) e2 (List.mem_cons_of_mem _ h2)
    simp only [processNeighbors]
    split
    · rename_i horig
      rw [ih results hinj2 n]
      constructor
      · rintro (h | ⟨hid, e2, he2, hq⟩)
        · exact Or.inl h
        · exact Or.inr ⟨hid, e2, List.mem_cons_of_mem _ he2, hq⟩
      · rintro (h | ⟨hid, e2, he2, hne2, hq⟩)
        · exact Or.inl h
        · rcases List.mem_cons.mp he2 with he2 | he2
          · exact absurd (he2 ▸ horig) hne2
          · exact Or.inr ⟨hid, e2, he2, hne2, hq⟩
    · split
      · rename_i horig hany
        rw [ih results hinj2 n]
        constructor
        · rintro (h | ⟨hid, e2, he2, hq⟩)
          · exact Or.inl h
          · exact Or.inr ⟨hid, e2, List.mem_cons_of_mem _ he2, hq⟩
        · rintro (h | ⟨hid, e2, he2, hne2, hc2, s2, hf2, hn2⟩)
          · exact Or.inl h
          · have hmem : ∀ hep : endpoint e2 = endpoint e, False := by
              intro hep
              apply hid
              rw [List.any_eq_true] at hany
              obtain ⟨m, hm, hmid⟩ := hany
              rw [beq_iff_eq] at hmid
              rw [List.mem_map]
              exact ⟨m, hm, by rw [hmid, ← hep, hn2]⟩
            rcases List.mem_cons.mp he2 with he2 | he2
            · exact absurd (by rw [he2]) hmem
            · exact Or.inr ⟨hid, e2, he2, hne2, hc2, s2, hf2, hn2⟩
      · split
        · rename_i horig hany hconf
          rw [ih results hinj2 n]
          constructor
          · rintro (h | ⟨hid, e2, he2, hq⟩)
            · exact Or.inl h
            · exact Or.inr ⟨hid, e2, List.mem_cons_of_mem _ he2, hq⟩
          · rintro (h | ⟨hid, e2, he2, hne2, hc2, s2, hf2, hn2⟩)
            · exact Or.inl h
            · rcases List.mem_cons.mp he2 with he2 | he2
              · exact absurd (he2 ▸ hconf) hc2
              · by_cases hep : endpoint e2 = endpoint e
                · have := hinj e2 (List.mem_cons_of_mem _ he2) e (List.mem_cons_self _ _) hep
                  exact absurd (this ▸ hconf) hc2
                · exact Or.inr ⟨hid, e2, he2, hne2, hc2, s2, hf2, hn2⟩
        · split
          · rename_i horig hany hconf hfindnone
            rw [ih results hinj2 n]
            constructor
            · rintro (h | ⟨hid, e2, he2, hq⟩)
              · exact Or.inl h
              · exact Or.inr ⟨hid, e2, List.mem_cons_of_mem _ he2, hq⟩
            · rintro (h | ⟨hid, e2, he2, hne2, hc2, s2, hf2, hn2⟩)
              · exact Or.inl h
              · rcases List.mem_cons.mp he2 with he2 | he2
                · rw [he2] at hf2
                  rw [hfindnone] at hf2
                  cases hf2
                · by_cases hep : endpoint e2 = endpoint e
                  · have := hinj e2 (List.mem_cons_of_mem _ he2) e (List.mem_cons_self _ _) hep
                    rw [this] at hf2
                    rw [hfindnone] at hf2
                    cases hf2
                  · exact Or.inr ⟨hid, e2, he2, hne2, hc2, s2, hf2, hn2⟩
          · rename_i horig hany hconf hdiscr s hfind
            dsimp only
            rw [ih _ hinj2 n]
            have hnotidin : endpoint e ∉ results.map (fun m => m.symbol_id) := by
              intro hmem
              apply hany
              rw [List.mem_map] at hmem
              obtain ⟨m, hm, hmid⟩ := hmem
              exact List.any_eq_true.mpr ⟨m, hm, by rw [beq_iff_eq, hmid]⟩
            constructor
            · rintro (h | ⟨hid, e2, he2, hq⟩)
              · rcases List.mem_append.mp h with h | h
                · exact Or.inl h
                · rw [List.mem_singleton] at h
                  refine Or.inr ⟨by rw [h]; exact hnotidin, e,
                    List.mem_cons_self _ _, horig, hconf, s, hfind, h⟩
              · rw [List.map_append, List.mem_append] at hid
                push_neg at hid
                exact Or.inr ⟨hid.1, e2, List.mem_cons_of_mem _ he2, hq⟩
            · rintro (h | ⟨hid, e2, he2, hne2, hc2, s2, hf2, hn2⟩)
              · exact Or.inl (List.mem_append_left _ h)
              · rcases List.mem_cons.mp he2 with he2 | he2
                · subst he2
                  rw [hfind] at hf2
                  cases hf2
                  exact Or.inl (List.mem_append_right _ (List.mem_singleton.mpr hn2))
                · by_cases hep : endpoint e2 = endpoint e
                  · have heq := hinj e2 (List.mem_cons_of_mem _ he2) e
                      (List.mem_cons_self _ _) hep
                    subst heq
                    rw [hfind] at hf2
                    cases hf2
                    exact Or.inl (List.mem_append_right _ (List.mem_singleton.mpr hn2))
                  · refine Or.inr ⟨?_, e2, he2, hne2, hc2, s2, hf2, hn2⟩
                    rw [List.map_append, List.mem_append]
                    push_neg
                    refine ⟨hid, ?_⟩
                    rw [hn2]
                    simp only [List.map_cons, List.map_nil, List.mem_singleton]
                    exact hep

/-- Two sorted lists that are permutations of each other coincide when the
order is antisymmetric on the elements involved. -/
theorem eq_of_perm_of_sortedBool {α : Type} (le : α → α → Bool) :
    ∀ (l1 l2 : List α), l1.Perm l2 →
      l1.Pairwise (fun a b => le a b = true) →
      l2.Pairwise (fun a b => le a b = true) →
      (∀ a ∈ l1, ∀ b ∈ l1, le a b = true → le b a = true → a = b) →
      l1 = l2 := by
  intro l1
  induction l1 with
  | nil =>
    intro l2 hp _ _ _
    exact hp.nil_eq
  | cons a t1 ih =>
    intro l2 hp h1 h2 hanti
    cases l2 with
    | nil => simpa using hp.length_eq
    | cons b t2 =>
      by_cases hab : a = b
      · subst hab
        rw [ih t2 hp.cons_inv ((List.pairwise_cons.mp h1).2) ((List.pairwise_cons.mp h2).2)
          (fun x hx y hy => hanti x (List.mem_cons_of_mem _ hx) y (List.mem_cons_of_mem _ hy))]
      · have hb1 : b ∈ t1 := by
          have : b ∈ a :: t1 := hp.symm.subset (List.mem_cons_self _ _)
          rcases List.mem_cons.mp this with h | h
          · exact absurd h.symm hab
          · exact h
        have ha2 : a ∈ t2 := by
          have : a ∈ b :: t2 := hp.subset (List.mem_cons_self _ _)
          rcases List.mem_cons.mp this with h | h
          · exact absurd h hab
          · exact h
        have hle1 : le a b = true := (List.pairwise_cons.mp h1).1 b hb1
        have hle2 : le b a = true := (List.pairwise_cons.mp h2).1 a ha2
        exact absurd (hanti a (List.mem_cons_self _ _) b (List.mem_cons_of_mem _ hb1)
          hle1 hle2) hab

/-- Shows that the output of `pySorted nodeLe` is sorted by the key
(-confidence, name) of graph.py. -/
theorem pySorted_nodeLe_sorted (l : List GraphNode) :
    (pySorted nodeLe l).Pairwise (fun a b => nodeLe a b = true) := by
  haveI : IsTotal GraphNode (fun a b => nodeLe a b = true) := ⟨nodeLe_total⟩
  haveI : IsTrans GraphNode (fun a b => nodeLe a b = true) := ⟨fun a b c => nodeLe_trans a b c⟩
  exact List.sorted_insertionSort _ l

/-- Insertion-order independence of a single depth-1 pass: with equal symbol
tables, permuted edge lists, endpoint-injectivity and pairwise-distinct symbol
names, the sorted node lists coincide. -/
theorem depth1_sorted_eq (db1 db2 : GraphDb) (X : Nat) (minConf : ℚ)
    (ep : EdgeRow → Nat) (es1 es2 : List EdgeRow)
    (hsym : db1.symbols = db2.symbols)
    (hperm : es1.Perm es2)
    (hinj1 : ∀ e1 ∈ es1, ∀ e2 ∈ es1, ep e1 = ep e2 → e1 = e2)
    (hnames : (db1.symbols.map (fun s => s.name)).Nodup) :
    pySorted nodeLe (processNeighbors db1 X minConf 0 1 ep es1 []).1 =
      pySorted nodeLe (processNeighbors db2 X minConf 0 1 ep es2 []).1 := by
  have hinj2 : ∀ e1 ∈ es2, ∀ e2 ∈ es2, ep e1 = ep e2 → e1 = e2 := by
    intro e1 h1 e2 h2
    exact hinj1 e1 (hperm.mem_iff.mpr h1) e2 (hperm.mem_iff.mpr h2)
  obtain ⟨add1, hq1, _, hnd1, hmem1spec⟩ := processNeighbors_spec db1 X minConf 0 1 ep es1 []
  obtain ⟨add2, hq2, _, hnd2, _⟩ := processNeighbors_spec db2 X minConf 0 1 ep es2 []
  have hP1nd : ((processNeighbors db1 X minConf 0 1 ep es1 []).1.map
      (fun n => n.symbol_id)).Nodup := by
    rw [hq1]; simpa using hnd1
  have hP2nd : ((processNeighbors db2 X minConf 0 1 ep es2 []).1.map
      (fun n => n.symbol_id)).Nodup := by
    rw [hq2]; simpa using hnd2
  have hmem1 := processNeighbors_mem db1 X minConf 0 1 ep es1 [] hinj1
  have hmem2 := processNeighbors_mem db2 X minConf 0 1 ep es2 [] hinj2
  have hmemiff : ∀ n, n ∈ (processNeighbors db1 X minConf 0 1 ep es1 []).1 ↔
      n ∈ (processNeighbors db2 X minConf 0 1 ep es2 []).1 := by
    intro n
    rw [hmem1 n, hmem2 n, ← hsym]
    simp only [List.not_mem_nil, List.map_nil, false_or]
    constructor
    · rintro ⟨hid, e, he, hq⟩
      exact ⟨hid, e, hperm.mem_iff.mp he, hq⟩
    · rintro ⟨hid, e, he, hq⟩
      exact ⟨hid, e, hperm.mem_iff.mpr he, hq⟩
  have hPperm : (processNeighbors db1 X minConf 0 1 ep es1 []).1.Perm
      (processNeighbors db2 X minConf 0 1 ep es2 []).1 :=
    (List.perm_ext_iff_of_nodup (List.Nodup.of_map _ hP1nd)
      (List.Nodup.of_map _ hP2nd)).mpr hmemiff
  have hanti : ∀ a ∈ (processNeighbors db1 X minConf 0 1 ep es1 []).1,
      ∀ b ∈ (processNeighbors db1 X minConf 0 1 ep es1 []).1,
      nodeLe a b = true → nodeLe b a = true → a = b := by
    intro a ha b hb hab hba
    obtain ⟨_, hname⟩ := nodeLe_antisymm a b hab hba
    rcases (hmem1 a).mp ha with h | ⟨_, ea, _, _, _, sa, hfa, hna⟩
    · simp at h
    rcases (hmem1 b).mp hb with h | ⟨_, eb, _, _, _, sb, hfb, hnb⟩
    · simp at h
    have hsa : sa ∈ db1.symbols := List.mem_of_find?_eq_some hfa
    have hsb : sb ∈ db1.symbols := List.mem_of_find?_eq_some hfb
    have hsaid : sa.id = ep ea := by
      have := List.find?_some hfa
      rwa [beq_iff_eq] at this
    have hsbid : sb.id = ep eb := by
      have := List.find?_some hfb
      rwa [beq_iff_eq] at this
    have hsname : sa.name = sb.name := by
      have h1 : a.name = sa.name := by rw [hna]
      have h2 : b.name = sb.name := by rw [hnb]
      rw [← h1, ← h2, hname]
    have hss : sa = sb := List.inj_on_of_nodup_map hnames hsa hsb hsname
    have hid : a.symbol_id = b.symbol_id := by
      have h1 : a.symbol_id = ep ea := by rw [hna]
      have h2 : b.symbol_id = ep eb := by rw [hnb]
      rw [h1, h2, ← hsaid, ← hsbid, hss]
    exact List.inj_on_of_nodup_map hP1nd ha hb hid
  apply eq_of_perm_of_sortedBool nodeLe
  · exact ((List.perm_insertionSort _ _).trans hPperm).trans
      (List.perm_insertionSort _ _).symm
  · exact pySorted_nodeLe_sorted _
  · exact pySorted_nodeLe_sorted _
  · intro a ha b hb
    exact hanti a ((List.perm_insertionSort _ _).mem_iff.mp ha)
      b ((List.perm_insertionSort _ _).mem_iff.mp hb)

/-- Witness for C5: a two-symbol store with the cycle a calls b, b calls a;
callers of symbol 1 at depth 10 return without symbol 1. -/
theorem C5_cycle_callers_terminate_witness :
    ∃ l, callersBFS ⟨[⟨1, "a", "function", "c.py", 1⟩, ⟨2, "b", "function", "c.py", 2⟩],
        [⟨1, 1, 2, "call", 1, none⟩, ⟨2, 2, 1, "call", 1, none⟩]⟩ 1 10 0 = some l ∧
      ∀ n ∈ l, n.symbol_id ≠ 1 :=
  C5_cycle_callers_terminate _ 1 2
    ⟨⟨1, 1, 2, "call", 1, none⟩, by simp, rfl, rfl⟩
    ⟨⟨2, 2, 1, "call", 1, none⟩, by simp, rfl, rfl⟩

/-- Store with two distinct callers both named `foo`, edges inserted in one
order (used to refute insertion-order independence of the result order). -/
def c6Dup1 : GraphDb :=
  ⟨[⟨1, "foo", "function", "x.py", 1⟩, ⟨2, "foo", "function", "y.py", 1⟩,
    ⟨3, "t", "function", "z.py", 1⟩],
   [⟨1, 1, 3, "call", 1, none⟩, ⟨2, 2, 3, "call", 2, none⟩]⟩

/-- Same store as `c6Dup1` with the two edge rows inserted in the other order. -/
def c6Dup2 : GraphDb :=
  ⟨[⟨1, "foo", "function", "x.py", 1⟩, ⟨2, "foo", "function", "y.py", 1⟩,
    ⟨3, "t", "function", "z.py", 1⟩],
   [⟨2, 2, 3, "call", 2, none⟩, ⟨1, 1, 3, "call", 1, none⟩]⟩

/-- C6 counterexample: the two stores hold the same set of edges (two symbols
both named `foo` calling `t`, both call edges with equal confidence 0.9), yet
`callers(t)` returns the two nodes in different orders - the sort key
(-confidence, name) ties, and Python's stable sort then preserves the
insertion order of the edge rows. -/
theorem C6_insertion_order_counterexample :
    callersBFS c6Dup1 3 1 0 ≠ callersBFS c6Dup2 3 1 0 := by
  norm_num [c6Dup1, c6Dup2, callersBFS, graphBFS, processNeighbors, getIncomingEdges,
    extractConfidence, pySorted, List.insertionSort, List.orderedInsert, nodeLe,
    pyStrLe, charListLe, min_def, max_def]

/-- C6 amended: the results of callers and callees are always sorted by
confidence descending then name ascending; and at the default depth 1,
insertion order of the edge rows does not affect the output provided no two
distinct edge rows connect the same ordered pair of symbols and no two
distinct symbols share a name.  (The counterexample shows the unrestricted
claim fails: equal-name ties are broken by insertion order; parallel edges of
different kinds likewise make the first-inserted row win.) -/
theorem C6_sort_stability_amended :
    (∀ (db : GraphDb) (X depth : Nat) (minConf : ℚ) (l : List GraphNode),
        callersBFS db X depth minConf = some l →
          l.Pairwise (fun a b => nodeLe a b = true)) ∧
    (∀ (db : GraphDb) (X depth : Nat) (minConf : ℚ) (l : List GraphNode),
        calleesBFS db X depth minConf = some l →
          l.Pairwise (fun a b => nodeLe a b = true)) ∧
    (∀ (db1 db2 : GraphDb) (X : Nat) (minConf : ℚ),
        db1.symbols = db2.symbols → db1.edges.Perm db2.edges →
        (∀ e1 ∈ db1.edges, ∀ e2 ∈ db1.edges,
          e1.source_id = e2.source_id → e1.target_id = e2.target_id → e1 = e2) →
        (db1.symbols.map (fun s => s.name)).Nodup →
        callersBFS db1 X 1 minConf = callersBFS db2 X 1 minConf ∧
        calleesBFS db1 X 1 minConf = calleesBFS db2 X 1 minConf) := by
  refine ⟨?_, ?_, ?_⟩
  · intro db X depth minConf l hl
    rw [callersBFS] at hl
    cases hbfs : graphBFS db X depth minConf (getIncomingEdges db) (fun e => e.source_id)
        (2 * db.edges.length + 2) [(X, 0, 1)] [] with
    | none => rw [hbfs] at hl; cases hl
    | some res =>
      rw [hbfs] at hl
      have : pySorted nodeLe res = l := by injection hl
      rw [← this]
      exact pySorted_nodeLe_sorted res
  · intro db X depth minConf l hl
    rw [calleesBFS] at hl
    cases hbfs : graphBFS db X depth minConf (getOutgoingEdges db) (fun e => e.target_id)
        (2 * db.edges.length + 2) [(X, 0, 1)] [] with
    | none => rw [hbfs] at hl; cases hl
    | some res =>
      rw [hbfs] at hl
      have : pySorted nodeLe res = l := by injection hl
      rw [← this]
      exact pySorted_nodeLe_sorted res
  · intro db1 db2 X minConf hsym hperm hnopar hnames
    have hnopar2 : ∀ e1 ∈ db2.edges, ∀ e2 ∈ db2.edges,
        e1.source_id = e2.source_id → e1.target_id = e2.target_id → e1 = e2 := by
      intro e1 h1 e2 h2
      exact hnopar e1 (hperm.mem_iff.mpr h1) e2 (hperm.mem_iff.mpr h2)
    constructor
    · rw [callersBFS, callersBFS,
        graphBFS_depth_one db1 X minConf (getIncomingEdges db1) (fun e => e.source_id)
          (List.length_filter_le _ _),
        graphBFS_depth_one db2 X minConf (getIncomingEdges db2) (fun e => e.source_id)
          (List.length_filter_le _ _)]
      refine congrArg some (depth1_sorted_eq db1 db2 X minConf (fun e => e.source_id)
        (getIncomingEdges db1 X) (getIncomingEdges db2 X) hsym (hperm.filter _) ?_ hnames)
      intro e1 h1 e2 h2 hsrc
      rw [getIncomingEdges, List.mem_filter] at h1 h2
      refine hnopar e1 h1.1 e2 h2.1 hsrc ?_
      rw [beq_iff_eq] at h1 h2
      rw [h1.2, h2.2]
    · rw [calleesBFS, calleesBFS,
        graphBFS_depth_one db1 X minConf (getOutgoingEdges db1) (fun e => e.target_id)
          (List.length_filter_le _ _),
        graphBFS_depth_one db2 X minConf (getOutgoingEdges db2) (fun e => e.target_id)
          (List.length_filter_le _ _)]
      refine congrArg some (depth1_sorted_eq db1 db2 X minConf (fun e => e.target_id)
        (getOutgoingEdges db1 X) (getOutgoingEdges db2 X) hsym (hperm.filter _) ?_ hnames)
      intro e1 h1 e2 h2 htgt
      rw [getOutgoingEdges, List.mem_filter] at h1 h2
      refine hnopar e1 h1.1 e2 h2.1 ?_ htgt
      rw [beq_iff_eq] at h1 h2
      rw [h1.2, h2.2]

/-- Store with distinct symbol names and no parallel edges, one edge order. -/
def c6Prime1 : GraphDb :=
  ⟨[⟨1, "a", "function", "x.py", 1⟩, ⟨2, "b", "function", "y.py", 1⟩,
    ⟨3, "t", "function", "z.py", 1⟩],
   [⟨1, 1, 3, "call", 1, none⟩, ⟨2, 2, 3, "call", 2, none⟩]⟩

/-- Same store as `c6Prime1` with the edge rows in the other insertion order. -/
def c6Prime2 : GraphDb :=
  ⟨[⟨1, "a", "function", "x.py", 1⟩, ⟨2, "b", "function", "y.py", 1⟩,
    ⟨3, "t", "function", "z.py", 1⟩],
   [⟨2, 2, 3, "call", 2, none⟩, ⟨1, 1, 3, "call", 1, none⟩]⟩

/-- Witness for C6 amended: an empty store gives a (trivially) sorted result,
and two permuted stores with distinct symbol names and no parallel edges give
identical callers and callees. -/
theorem C6_sort_stability_amended_witness :
    ([] : List GraphNode).Pairwise (fun a b => nodeLe a b = true) ∧
    (callersBFS c6Prime1 3 1 0 = callersBFS c6Prime2 3 1 0 ∧
      calleesBFS c6Prime1 3 1 0 = calleesBFS c6Prime2 3 1 0) :=
  ⟨C6_sort_stability_amended.1 ⟨[], []⟩ 1 1 0 [] (by
      norm_num [callersBFS, graphBFS, processNeighbors, getIncomingEdges, pySorted,
        List.insertionSort]),
   C6_sort_stability_amended.2.2 c6Prime1 c6Prime2 3 0 rfl
     (by
       show ([⟨1, 1, 3, "call", 1, none⟩, ⟨2, 2, 3, "call", 2, none⟩] :
           List EdgeRow).Perm [⟨2, 2, 3, "call", 2, none⟩, ⟨1, 1, 3, "call", 1, none⟩]
       exact List.Perm.swap (⟨2, 2, 3, "call", 2, none⟩ : EdgeRow)
         (⟨1, 1, 3, "call", 1, none⟩ : EdgeRow) [])
     (by decide) (by decide)⟩

/-! ### Indexer and store model (indexer.py, db.py, config.py)

The store is modelled as explicit table state: lists of rows in rowid
(insertion) order plus the AUTOINCREMENT counters and the meta table.  File
content hashes are modelled by the content string itself (SHA-256 is treated
as injective), and each indexing run happens at a single integer timestamp
`now` standing for `datetime.now().timestamp()` and `st_mtime` readings. -/

/-- Row of the `files` table (CREATE_TABLES_SQL in db.py). -/
structure FileRow where
  id : Nat
  path : String
  mtime : Int
  size : Nat
  content_hash : String
  indexed_at : Int
  language : Option String
deriving Repr, DecidableEq

/-- Row of the `symbols` table (CREATE_TABLES_SQL in db.py). -/
structure SymbolRow where
  id : Nat
  file_id : Nat
  name : String
  kind : String
  line_start : Nat
  line_end : Option Nat
  column_start : Option Nat
  column_end : Option Nat
  signature : Option String
  docstring : Option String
  parent_id : Option Nat
deriving Repr, DecidableEq

/-- Row of the `callsites` table (CREATE_TABLES_SQL in db.py). -/
structure CallsiteRow where
  id : Nat
  edge_id : Nat
  line : Nat
  column : Option Nat
  context : Option String
deriving Repr, DecidableEq

/-- The SQLite store: the four data tables in rowid order, the meta table,
and the next AUTOINCREMENT id of each table with an integer primary key. -/
structure Db where
  files : List FileRow
  symbols : List SymbolRow
  edges : List EdgeRow
  callsites : List CallsiteRow
  meta : MetaTable
  nextFileId : Nat
  nextSymbolId : Nat
  nextEdgeId : Nat
deriving Repr, DecidableEq

/-- A candidate file as `scan_files` reports it: relative path, `st_mtime`
already truncated to an integer, size, and content (standing for its hash). -/
structure FSFile where
  path : String
  mtime : Int
  size : Nat
  content : String
deriving Repr, DecidableEq

/-- pathlib `PurePath.name`: the final path component. -/
def pathName (p : String) : String :=
  ((pySplit p '/').getLast?).getD p

/-- Index of the last occurrence of `c` (Python `str.rfind`), `none` if absent. -/
def rfindChar (c : Char) (cs : List Char) : Option Nat :=
  ((cs.enum.filter (fun pr => pr.2 == c)).getLast?).map (fun pr => pr.1)

/-- pathlib `PurePath.stem`: the name up to the last dot, provided that dot is
neither leading nor trailing in the name. -/
def pathStem (p : String) : String :=
  let name := pathName p
  let cs := name.data
  match rfindChar '.' cs with
  | some i => if 0 < i ∧ i < cs.length - 1 then ⟨cs.take i⟩ else name
  | none => name

/-- pathlib `PurePath.suffix`: the last dot of the name to the end, under the
same conditions as `pathStem`. -/
def pathSuffix (p : String) : String :=
  let name := pathName p
  let cs := name.data
  match rfindChar '.' cs with
  | some i => if 0 < i ∧ i < cs.length - 1 then ⟨cs.drop i⟩ else ""
  | none => ""

/-- ASCII lower-casing of one character (Python `str.lower` on extensions). -/
def asciiLower (c : Char) : Char :=
  if 65 ≤ c.toNat ∧ c.toNat ≤ 90 then Char.ofNat (c.toNat + 32) else c

/-- Python `str.lower` restricted to ASCII, as applied to file extensions. -/
def strLower (s : String) : String :=
  ⟨s.data.map asciiLower⟩

/-- `config.languages.extensions` defaults of config.py. -/
def languageExtensions : List (String × String) :=
  [(".py", "python"), (".js", "javascript"), (".jsx", "javascript"),
   (".ts", "typescript"), (".tsx", "typescript"), (".rs", "rust"),
   (".go", "go"), (".java", "java"), (".c", "c"), (".h", "c"),
   (".cpp", "cpp"), (".hpp", "cpp"), (".cc", "cpp"), (".rb", "ruby")]

/-- Indexer.detect_language: look the lower-cased extension up in the
configured extension map. -/
def detectLanguage (p : String) : Option String :=
  (languageExtensions.find? (fun kv => kv.1 == strLower (pathSuffix p))).map
    (fun kv => kv.2)

/-- Database.get_file: first row of `files` with the given path. -/
def getFile (db : Db) (path : String) : Option FileRow :=
  db.files.find? (fun r => r.path == path)

/-- Database.add_file: `INSERT ... ON CONFLICT(path) DO UPDATE` — update the
existing row in place keeping its id, or append a fresh row with the next
AUTOINCREMENT id; returns the store and the row id. -/
def addFile (db : Db) (now : Int) (path : String) (mtime : Int) (size : Nat)
    (contentHash : String) (language : Option String) : Db × Nat :=
  match db.files.find? (fun r => r.path == path) with
  | some r =>
    ({ db with files := db.files.map (fun q =>
        if q.path == path then
          { q with
            mtime := mtime
            size := size
            content_hash := contentHash
            indexed_at := now
            language := language }
        else q) }, r.id)
  | none =>
    ({ db with
        files := db.files ++
          [⟨db.nextFileId, path, mtime, size, contentHash, now, language⟩]
        nextFileId := db.nextFileId + 1 }, db.nextFileId)

/-- Transitive closure of the `symbols.parent_id ON DELETE CASCADE` rule:
starting from the seed ids, repeatedly add symbols whose parent is dead.  The
fuel `syms.length` bounds the closure iterations. -/
def symChildClosure (syms : List SymbolRow) : Nat → List Nat → List Nat
  | 0, dead => dead
  | fuel + 1, dead =>
    let more := (syms.filter (fun s =>
        !(dead.contains s.id) &&
          match s.parent_id with
          | some parent => dead.contains parent
          | none => false)).map (fun s => s.id)
    if more.isEmpty then dead else symChildClosure syms fuel (dead ++ more)

/-- Delete the seed symbols together with their ON DELETE CASCADE fallout:
child symbols transitively, edges whose source or target dies, and callsites
of dead edges (`PRAGMA foreign_keys = ON` is set in `Database.connect`). -/
def cascadeDeleteSymbols (db : Db) (seed : List Nat) : Db :=
  let dead := symChildClosure db.symbols db.symbols.length seed
  let deadEdgeIds := (db.edges.filter (fun e =>
      dead.contains e.source_id || dead.contains e.target_id)).map (fun e => e.id)
  { db with
    symbols := db.symbols.filter (fun s => !(dead.contains s.id))
    edges := db.edges.filter (fun e =>
      !(dead.contains e.source_id) && !(dead.contains e.target_id))
    callsites := db.callsites.filter (fun c => !(deadEdgeIds.contains c.edge_id)) }

/-- Database.delete_file: drop the row with the given path (if any) and let
the foreign keys cascade through symbols, edges and callsites. -/
def deleteFile (db : Db) (path : String) : Db × Bool :=
  match db.files.find? (fun r => r.path == path) with
  | none => (db, false)
  | some r =>
    let seed := (db.symbols.filter (fun s => s.file_id == r.id)).map (fun s => s.id)
    let deadEdgeIds := (db.edges.filter (fun e => e.file_id == r.id)).map
      (fun e => e.id)
    let db1 : Db := { db with
      files := db.files.filter (fun q => q.id != r.id)
      edges := db.edges.filter (fun e => e.file_id != r.id)
      callsites := db.callsites.filter (fun c => !(deadEdgeIds.contains c.edge_id)) }
    (cascadeDeleteSymbols db1 seed, true)

/-- Database.get_symbols_in_file: symbols of the file `ORDER BY line_start`
(stable over rowid order). -/
def getSymbolsInFile (db : Db) (fileId : Nat) : List SymbolRow :=
  pySorted (fun a b => decide (a.line_start ≤ b.line_start))
    (db.symbols.filter (fun s => s.file_id == fileId))

/-- Database.delete_symbols_in_file, with the symbol cascade. -/
def deleteSymbolsInFile (db : Db) (fileId : Nat) : Db :=
  cascadeDeleteSymbols db
    ((db.symbols.filter (fun s => s.file_id == fileId)).map (fun s => s.id))

/-- Database.delete_edges_in_file: drop edges of the file and their callsites. -/
def deleteEdgesInFile (db : Db) (fileId : Nat) : Db :=
  let deadEdgeIds := (db.edges.filter (fun e => e.file_id == fileId)).map
    (fun e => e.id)
  { db with
    edges := db.edges.filter (fun e => e.file_id != fileId)
    callsites := db.callsites.filter (fun c => !(deadEdgeIds.contains c.edge_id)) }

/-- Database.add_symbol: append a symbol row with the next AUTOINCREMENT id. -/
def addSymbol (db : Db) (fileId : Nat) (name kind : String) (lineStart : Nat)
    (lineEnd columnStart columnEnd : Option Nat)
    (signature docstring : Option String) (parentId : Option Nat) : Db × Nat :=
  ({ db with
      symbols := db.symbols ++
        [⟨db.nextSymbolId, fileId, name, kind, lineStart, lineEnd, columnStart,
          columnEnd, signature, docstring, parentId⟩]
      nextSymbolId := db.nextSymbolId + 1 }, db.nextSymbolId)

/-- Symbol dictionary produced by Indexer.parse_file. -/
structure ParsedSymbol where
  name : String
  kind : String
  line_start : Nat
  line_end : Option Nat
  column_start : Option Nat
  column_end : Option Nat
  signature : Option String
  docstring : Option String
  parent_name : Option String
  calls : List String
deriving Repr, DecidableEq

/-- Indexer.parse_file: the TODO placeholder ignores the file content and
returns a single `file`-kind symbol named after the path stem, with no calls. -/
def parseFile (f : FSFile) : List ParsedSymbol :=
  [⟨pathStem f.path, "file", 1, none, none, none, none, none, none, []⟩]

/-- Indexer.should_reindex: reindex when the record is missing or the mtime,
size, or content hash differs. -/
def shouldReindex (f : FSFile) (dbFile : Option FileRow) : Bool :=
  match dbFile with
  | none => true
  | some r =>
    if f.mtime != r.mtime then true
    else if f.size != r.size then true
    else if f.content != r.content_hash then true
    else false

/-- IndexStats of indexer.py (the counters; timing fields are dropped). -/
structure IndexStats where
  files_scanned : Nat
  files_new : Nat
  files_changed : Nat
  files_unchanged : Nat
  files_deleted : Nat
  files_error : Nat
  symbols_added : Nat
  symbols_removed : Nat
  edges_added : Nat
  edges_removed : Nat
deriving Repr, DecidableEq

/-- Fresh IndexStats (all counters zero). -/
def initStats : IndexStats := ⟨0, 0, 0, 0, 0, 0, 0, 0, 0, 0⟩

/-- Indexer.index_file: upsert the file row, count and delete the old symbols
of the file, delete its edges, parse (the placeholder), and insert each parsed
symbol, resolving `parent_name` through the accumulated symbol map.  The
per-call loop of the source is `pass` and adds nothing. -/
def indexFile (db : Db) (now : Int) (f : FSFile) (st : IndexStats) :
    Db × IndexStats :=
  let af := addFile db now f.path f.mtime f.size f.content (detectLanguage f.path)
  let fileId := af.2
  let st1 : IndexStats := { st with
    symbols_removed := st.symbols_removed + (getSymbolsInFile af.1 fileId).length }
  let db3 := deleteEdgesInFile (deleteSymbolsInFile af.1 fileId) fileId
  let step := (parseFile f).foldl
    (fun (acc : Db × IndexStats × List (String × Nat)) sym =>
      let parentId := match sym.parent_name with
        | some pn => (acc.2.2.find? (fun kv => kv.1 == pn)).map (fun kv => kv.2)
        | none => none
      let as0 := addSymbol acc.1 fileId sym.name sym.kind sym.line_start
        sym.line_end sym.column_start sym.column_end sym.signature sym.docstring
        parentId
      (as0.1,
       { acc.2.1 with symbols_added := acc.2.1.symbols_added + 1 },
       if acc.2.2.any (fun kv => kv.1 == sym.name) then
         acc.2.2.map (fun kv => if kv.1 == sym.name then (kv.1, as0.2) else kv)
       else acc.2.2 ++ [(sym.name, as0.2)]))
    (db3, st1, ([] : List (String × Nat)))
  (step.1, step.2.1)

/-- One step of Indexer.remove_stale_files: delete the snapshot row's path
when it is not among the scanned paths. -/
def staleStep (current : List String) (acc : Db × IndexStats) (r : FileRow) :
    Db × IndexStats :=
  if current.contains r.path then acc
  else ((deleteFile acc.1 r.path).1,
    { acc.2 with files_deleted := acc.2.files_deleted + 1 })

/-- Indexer.remove_stale_files: iterate over a snapshot of the files table. -/
def removeStaleFiles (db : Db) (current : List String) (st : IndexStats) :
    Db × IndexStats :=
  db.files.foldl (staleStep current) (db, st)

/-- One step of the per-file loop of Indexer.run: look the path up, then
either index (counting new/changed) or skip (counting unchanged). -/
def runStep (now : Int) (force : Bool) (acc : Db × IndexStats) (f : FSFile) :
    Db × IndexStats :=
  let dbFile := getFile acc.1 f.path
  if force || shouldReindex f dbFile then
    let st1 := match dbFile with
      | some _ => { acc.2 with files_changed := acc.2.files_changed + 1 }
      | none => { acc.2 with files_new := acc.2.files_new + 1 }
    indexFile acc.1 now f st1
  else (acc.1, { acc.2 with files_unchanged := acc.2.files_unchanged + 1 })

/-- Indexer.run on the scanned candidate list `fs`: record files_scanned,
remove stale rows, process each file, then write the index stats into the
meta table (Database.update_index_stats with Database.get_stats counts). -/
def runIndexer (db0 : Db) (fs : List FSFile) (now : Int) (force : Bool) :
    Db × IndexStats :=
  let st0 : IndexStats := { initStats with files_scanned := fs.length }
  let rs := removeStaleFiles db0 (fs.map (fun f => f.path)) st0
  let step := fs.foldl (runStep now force) rs
  ({ step.1 with
      meta := metaSet (metaSet (metaSet step.1.meta "last_indexed"
        (toString now)) "indexed_files" (Nat.repr step.1.files.length))
        "indexed_symbols" (Nat.repr step.1.symbols.length) },
   step.2)

/-- The store right after `Database.connect` on a fresh path: empty tables,
AUTOINCREMENT counters at 1. -/
def emptyDb : Db := ⟨[], [], [], [], [], 1, 1, 1⟩

/-- GraphEngine's view of a store: `_get_symbol` inner-joins `symbols` with
`files` to attach the file path, and edges are read in table order. -/
def graphView (db : Db) : GraphDb :=
  ⟨db.symbols.filterMap (fun s =>
      (db.files.find? (fun f => f.id == s.file_id)).map
        (fun f => ⟨s.id, s.name, s.kind, f.path, s.line_start⟩)),
    db.edges⟩

/-- The C1 scenario's single candidate file `m.py`. -/
def c1File : FSFile := ⟨"m.py", 100, 27, "def f(): pass\ndef g(): f()"⟩

/-- The C1 scenario: one `index()` run over a fresh store. -/
def c1Run : Db × IndexStats := runIndexer emptyDb [c1File] 1000 false

/-- C1: indexing a repository holding only `m.py` with `def f(): pass` and
`def g(): f()` stores one file row but only a single placeholder symbol `m`
of kind `file` (Indexer.parse_file is a TODO stub that returns the path stem)
and no edges, so `callers("f", depth=1)` and `callees("g", depth=1)` both
come back empty — not the claimed symbols `f` and `g` with a call edge. -/
theorem C1_index_single_file_placeholder :
    (c1Run.1.files.map (fun r => r.path)) = ["m.py"] ∧
    (c1Run.1.symbols.map (fun s => (s.name, s.kind))) = [("m", "file")] ∧
    c1Run.1.edges = [] ∧
    c1Run.2.files_new = 1 ∧ c1Run.2.symbols_added = 1 ∧
    callersByName (graphView c1Run.1) "f" 1 0 = some [] ∧
    calleesByName (graphView c1Run.1) "g" 1 0 = some [] := by
  decide


/-- `getFile` only reads the files table. -/
theorem getFile_congr_files {d1 d2 : Db} (h : d1.files = d2.files) (p : String) :
    getFile d1 p = getFile d2 p := by
  unfold getFile; rw [h]

/-- index_file only ever writes the files table through add_file. -/
theorem indexFile_files (db : Db) (now : Int) (f : FSFile) (st : IndexStats) :
    (indexFile db now f st).1.files =
      (addFile db now f.path f.mtime f.size f.content (detectLanguage f.path)).1.files :=
  rfl

/-- After add_file, the row at the file's path carries the written metadata. -/
theorem getFile_addFile_self (db : Db) (now : Int) (p : String) (m : Int)
    (sz : Nat) (h : String) (lang : Option String) :
    ∃ r, getFile (addFile db now p m sz h lang).1 p = some r ∧
      r.path = p ∧ r.mtime = m ∧ r.size = sz ∧ r.content_hash = h := by
  unfold addFile getFile
  cases hf : db.files.find? (fun r => r.path == p) with
  | none =>
    refine ⟨⟨db.nextFileId, p, m, sz, h, now, lang⟩, ?_, rfl, rfl, rfl, rfl⟩
    simp [List.find?_append, hf]
  | some r0 =>
    simp only
    have hfun : ((fun q : FileRow => q.path == p) ∘ (fun q : FileRow =>
        if q.path == p then
          { q with
            mtime := m
            size := sz
            content_hash := h
            indexed_at := now
            language := lang }
        else q)) = (fun q : FileRow => q.path == p) := by
      funext q
      by_cases hq : q.path = p <;> simp [hq]
    rw [List.find?_map, hfun, hf]
    have hp : r0.path = p := by simpa using List.find?_some hf
    exact ⟨{ r0 with
        mtime := m
        size := sz
        content_hash := h
        indexed_at := now
        language := lang }, by simp [hp], hp, rfl, rfl, rfl⟩

/-- add_file leaves rows at every other path untouched. -/
theorem getFile_addFile_other (db : Db) (now : Int) (p : String) (m : Int)
    (sz : Nat) (h : String) (lang : Option String) (q : String) (hne : q ≠ p) :
    getFile (addFile db now p m sz h lang).1 q = getFile db q := by
  unfold addFile getFile
  cases hf : db.files.find? (fun r => r.path == p) with
  | none =>
    simp only
    rw [List.find?_append]
    have hnone : [(⟨db.nextFileId, p, m, sz, h, now, lang⟩ : FileRow)].find?
        (fun r => r.path == q) = none := by
      simp [hne.symm]
    rw [hnone, Option.or_none]
  | some r0 =>
    simp only
    have hfun : ((fun r : FileRow => r.path == q) ∘ (fun r : FileRow =>
        if r.path == p then
          { r with
            mtime := m
            size := sz
            content_hash := h
            indexed_at := now
            language := lang }
        else r)) = (fun r : FileRow => r.path == q) := by
      funext r
      by_cases hr : r.path = p <;> simp [hr]
    rw [List.find?_map, hfun]
    cases hq : db.files.find? (fun r => r.path == q) with
    | none => rfl
    | some r1 =>
      have h1 : r1.path = q := by simpa using List.find?_some hq
      have hnp : ¬ (r1.path = p) := by rw [h1]; exact hne
      simp [hnp]

/-- The row at the processed path after the store survives a run step. -/
def matchesFS (db : Db) (f : FSFile) : Prop :=
  ∃ r, getFile db f.path = some r ∧ r.mtime = f.mtime ∧ r.size = f.size ∧
    r.content_hash = f.content

/-- When every snapshot row's path is still present on disk, the stale-file
sweep leaves the store and the statistics untouched. -/
theorem staleFold_id (current : List String) :
    ∀ (l : List FileRow) (acc : Db × IndexStats),
      (∀ r ∈ l, r.path ∈ current) →
      l.foldl (staleStep current) acc = acc := by
  intro l
  induction l with
  | nil => intro acc _; rfl
  | cons r rest ih =>
    intro acc h
    rw [List.foldl_cons]
    have hstep : staleStep current acc r = acc := by
      have hc : current.contains r.path = true := by
        simpa using h r (by simp)
      unfold staleStep
      rw [if_pos hc]
    rw [hstep]
    exact ih acc (fun x hx => h x (by simp [hx]))

/-- After the stale-file sweep, every surviving row's path is on disk,
provided the store's paths are duplicate-free. -/
theorem staleFold_paths (current : List String) :
    ∀ (pending : List FileRow) (acc : Db × IndexStats),
      (acc.1.files.map FileRow.path).Nodup →
      (∀ r ∈ acc.1.files, r.path ∈ current ∨ ∃ q ∈ pending, q.path = r.path) →
      ∀ r ∈ (pending.foldl (staleStep current) acc).1.files, r.path ∈ current := by
  intro pending
  induction pending with
  | nil =>
    intro acc _ hinv r hr
    rcases hinv r hr with h | ⟨q, hq, _⟩
    · exact h
    · exact absurd hq (by simp)
  | cons s rest ih =>
    intro acc hnd hinv
    rw [List.foldl_cons]
    by_cases hc : current.contains s.path = true
    · have hstep : staleStep current acc s = acc := by
        unfold staleStep; rw [if_pos hc]
      rw [hstep]
      refine ih acc hnd ?_
      intro r hr
      rcases hinv r hr with h | ⟨q, hq, hqp⟩
      · exact Or.inl h
      · rcases List.mem_cons.mp hq with rfl | hq'
        · exact Or.inl (by rw [← hqp]; simpa using hc)
        · exact Or.inr ⟨q, hq', hqp⟩
    · have hstep : staleStep current acc s =
          ((deleteFile acc.1 s.path).1,
            { acc.2 with files_deleted := acc.2.files_deleted + 1 }) := by
        unfold staleStep
        rw [if_neg hc]
      rw [hstep]
      unfold deleteFile
      cases hf : acc.1.files.find? (fun r => r.path == s.path) with
      | none =>
        refine ih _ (by simpa using hnd) ?_
        intro r hr
        simp only at hr
        rcases hinv r hr with h | ⟨q, hq, hqp⟩
        · exact Or.inl h
        · rcases List.mem_cons.mp hq with rfl | hq'
          · exfalso
            have := List.find?_eq_none.mp hf r hr
            simp [hqp] at this
          · exact Or.inr ⟨q, hq', hqp⟩
      | some r0 =>
        have hr0 : r0.path = s.path := by simpa using List.find?_some hf
        have hr0mem : r0 ∈ acc.1.files := List.mem_of_find?_eq_some hf
        refine ih _ ?_ ?_
        · simp only
          exact List.Nodup.sublist ((List.filter_sublist _).map FileRow.path) hnd
        · intro r hr
          have hr2 : r ∈ acc.1.files.filter (fun q => q.id != r0.id) := hr
          rw [List.mem_filter] at hr2
          obtain ⟨hrmem, hrid⟩ := hr2
          rcases hinv r hrmem with h | ⟨q, hq, hqp⟩
          · exact Or.inl h
          · rcases List.mem_cons.mp hq with rfl | hq'
            · exfalso
              have hreq : r = r0 :=
                List.inj_on_of_nodup_map hnd hrmem hr0mem ((hr0.trans hqp).symm)
              rw [hreq] at hrid
              simp at hrid
            · exact Or.inr ⟨q, hq', hqp⟩

/-- After a run step, the processed file's row matches its on-disk metadata. -/
theorem runStep_matches_self (now : Int) (force : Bool) (acc : Db × IndexStats)
    (f : FSFile) : matchesFS (runStep now force acc f).1 f := by
  unfold runStep
  by_cases hb : (force || shouldReindex f (getFile acc.1 f.path)) = true
  · rw [if_pos hb]
    obtain ⟨r, hr, _, h2, h3, h4⟩ := getFile_addFile_self acc.1 now f.path f.mtime
      f.size f.content (detectLanguage f.path)
    exact ⟨r, (getFile_congr_files (indexFile_files acc.1 now f _) f.path).trans hr,
      h2, h3, h4⟩
  · rw [if_neg hb]
    have hsr : shouldReindex f (getFile acc.1 f.path) = false := by
      simp only [Bool.or_eq_true, not_or] at hb
      exact Bool.eq_false_iff.mpr hb.2
    cases hg : getFile acc.1 f.path with
    | none => rw [hg] at hsr; simp [shouldReindex] at hsr
    | some r =>
      rw [hg] at hsr
      unfold shouldReindex at hsr
      by_cases h1 : f.mtime = r.mtime
      · by_cases h2 : f.size = r.size
        · by_cases h3 : f.content = r.content_hash
          · exact ⟨r, hg, h1.symm, h2.symm, h3.symm⟩
          · simp [h1, h2, h3] at hsr
        · simp [h1, h2] at hsr
      · simp [h1] at hsr

/-- A run step leaves rows at other paths untouched. -/
theorem runStep_getFile_other (now : Int) (force : Bool) (acc : Db × IndexStats)
    (f : FSFile) (p : String) (hne : p ≠ f.path) :
    getFile (runStep now force acc f).1 p = getFile acc.1 p := by
  unfold runStep
  by_cases hb : (force || shouldReindex f (getFile acc.1 f.path)) = true
  · rw [if_pos hb]
    exact (getFile_congr_files (indexFile_files acc.1 now f _) p).trans
      (getFile_addFile_other acc.1 now f.path f.mtime f.size f.content _ p hne)
  · rw [if_neg hb]

/-- The per-file loop leaves rows untouched at paths it never processes. -/
theorem foldl_runStep_getFile_other (now : Int) (force : Bool) :
    ∀ (fs : List FSFile) (acc : Db × IndexStats) (p : String),
      p ∉ fs.map FSFile.path →
      getFile (fs.foldl (runStep now force) acc).1 p = getFile acc.1 p := by
  intro fs
  induction fs with
  | nil => intro acc p _; rfl
  | cons f rest ih =>
    intro acc p hp
    rw [List.foldl_cons]
    simp only [List.map_cons, List.mem_cons, not_or] at hp
    rw [ih (runStep now force acc f) p (by simpa using hp.2)]
    exact runStep_getFile_other now force acc f p hp.1

/-- After the per-file loop, every processed file's row matches the disk,
provided the scanned paths are duplicate-free. -/
theorem foldl_runStep_matches (now : Int) (force : Bool) :
    ∀ (fs : List FSFile) (acc : Db × IndexStats),
      (fs.map FSFile.path).Nodup →
      ∀ f ∈ fs, matchesFS (fs.foldl (runStep now force) acc).1 f := by
  intro fs
  induction fs with
  | nil => intro acc _ f hf; exact absurd hf (by simp)
  | cons g rest ih =>
    intro acc hnd f hf
    rw [List.foldl_cons]
    rw [List.map_cons] at hnd
    have hnd2 := List.nodup_cons.mp hnd
    rcases List.mem_cons.mp hf with rfl | hf'
    · obtain ⟨r, hr, h1, h2, h3⟩ := runStep_matches_self now force acc f
      refine ⟨r, ?_, h1, h2, h3⟩
      rw [foldl_runStep_getFile_other now force rest (runStep now force acc f) f.path
        hnd2.1]
      exact hr
    · exact ih (runStep now force acc g) hnd2.2 f hf'

/-- A run step only writes rows whose paths were scanned. -/
theorem runStep_paths (now : Int) (force : Bool) (P : List String)
    (acc : Db × IndexStats) (f : FSFile)
    (hacc : ∀ r ∈ acc.1.files, r.path ∈ P) (hf : f.path ∈ P) :
    ∀ r ∈ (runStep now force acc f).1.files, r.path ∈ P := by
  unfold runStep
  by_cases hb : (force || shouldReindex f (getFile acc.1 f.path)) = true
  · rw [if_pos hb]
    intro r hr
    have hr2 : r ∈ (addFile acc.1 now f.path f.mtime f.size f.content
        (detectLanguage f.path)).1.files := by
      rw [← indexFile_files acc.1 now f _]
      exact hr
    unfold addFile at hr2
    cases hfind : acc.1.files.find? (fun q => q.path == f.path) with
    | some r0 =>
      rw [hfind] at hr2
      simp only [List.mem_map] at hr2
      obtain ⟨q, hq, hqr⟩ := hr2
      have hpath : r.path = q.path := by
        rw [← hqr]
        by_cases hc : q.path = f.path <;> simp [hc]
      rw [hpath]
      exact hacc q hq
    | none =>
      rw [hfind] at hr2
      simp only [List.mem_append, List.mem_singleton] at hr2
      rcases hr2 with hr2 | rfl
      · exact hacc r hr2
      · exact hf
  · rw [if_neg hb]
    exact hacc

/-- The per-file loop only writes rows whose paths were scanned. -/
theorem foldl_runStep_paths (now : Int) (force : Bool) (P : List String) :
    ∀ (fs : List FSFile) (acc : Db × IndexStats),
      (∀ f ∈ fs, FSFile.path f ∈ P) →
      (∀ r ∈ acc.1.files, r.path ∈ P) →
      ∀ r ∈ (fs.foldl (runStep now force) acc).1.files, r.path ∈ P := by
  intro fs
  induction fs with
  | nil => intro acc _ hacc; exact hacc
  | cons f rest ih =>
    intro acc hfs hacc
    rw [List.foldl_cons]
    exact ih (runStep now force acc f) (fun x hx => hfs x (by simp [hx]))
      (runStep_paths now force P acc f hacc (hfs f (by simp)))

/-- When every scanned file already matches its row, a non-forced loop pass
is a pure no-op on the store and only counts unchanged files. -/
theorem foldl_runStep_noop (now : Int) (d : Db) :
    ∀ (fs : List FSFile) (st : IndexStats),
      (∀ f ∈ fs, matchesFS d f) →
      fs.foldl (runStep now false) (d, st) =
        (d, { st with files_unchanged := st.files_unchanged + fs.length }) := by
  intro fs
  induction fs with
  | nil => intro st _; rfl
  | cons f rest ih =>
    intro st hm
    rw [List.foldl_cons]
    have hstep : runStep now false (d, st) f =
        (d, { st with files_unchanged := st.files_unchanged + 1 }) := by
      obtain ⟨r, hr, h1, h2, h3⟩ := hm f (by simp)
      unfold runStep
      have hsr : shouldReindex f (getFile d f.path) = false := by
        rw [hr]
        unfold shouldReindex
        simp [h1, h2, h3]
      rw [if_neg (by simp [hsr] : ¬ ((false || shouldReindex f
        (getFile (d, st).1 f.path)) = true))]
    rw [hstep, ih _ (fun x hx => hm x (by simp [hx]))]
    have harith : st.files_unchanged + 1 + rest.length =
        st.files_unchanged + (f :: rest).length := by
      rw [List.length_cons]
      omega
    exact congrArg
      (fun u => ((d, { st with files_unchanged := u }) : Db × IndexStats)) harith

/-- Projection of Indexer.run: the final files table is the per-file loop's,
as the closing update_index_stats only writes the meta table. -/
theorem runIndexer_files (db0 : Db) (fs : List FSFile) (now : Int)
    (force : Bool) :
    (runIndexer db0 fs now force).1.files =
      (fs.foldl (runStep now force)
        (removeStaleFiles db0 (fs.map (fun f => f.path))
          { initStats with files_scanned := fs.length })).1.files := rfl

/-- Projection of Indexer.run: the final symbols table is the loop's. -/
theorem runIndexer_symbols (db0 : Db) (fs : List FSFile) (now : Int)
    (force : Bool) :
    (runIndexer db0 fs now force).1.symbols =
      (fs.foldl (runStep now force)
        (removeStaleFiles db0 (fs.map (fun f => f.path))
          { initStats with files_scanned := fs.length })).1.symbols := rfl

/-- Projection of Indexer.run: the final edges table is the loop's. -/
theorem runIndexer_edges (db0 : Db) (fs : List FSFile) (now : Int)
    (force : Bool) :
    (runIndexer db0 fs now force).1.edges =
      (fs.foldl (runStep now force)
        (removeStaleFiles db0 (fs.map (fun f => f.path))
          { initStats with files_scanned := fs.length })).1.edges := rfl

/-- Projection of Indexer.run: the final callsites table is the loop's. -/
theorem runIndexer_callsites (db0 : Db) (fs : List FSFile) (now : Int)
    (force : Bool) :
    (runIndexer db0 fs now force).1.callsites =
      (fs.foldl (runStep now force)
        (removeStaleFiles db0 (fs.map (fun f => f.path))
          { initStats with files_scanned := fs.length })).1.callsites := rfl

/-- Projection of Indexer.run: the returned statistics are the loop's. -/
theorem runIndexer_snd (db0 : Db) (fs : List FSFile) (now : Int)
    (force : Bool) :
    (runIndexer db0 fs now force).2 =
      (fs.foldl (runStep now force)
        (removeStaleFiles db0 (fs.map (fun f => f.path))
          { initStats with files_scanned := fs.length })).2 := rfl

/-- Projection of Indexer.run: file lookups read the loop's files table. -/
theorem runIndexer_getFile (db0 : Db) (fs : List FSFile) (now : Int)
    (force : Bool) (p : String) :
    getFile (runIndexer db0 fs now force).1 p =
      getFile (fs.foldl (runStep now force)
        (removeStaleFiles db0 (fs.map (fun f => f.path))
          { initStats with files_scanned := fs.length })).1 p := rfl

/-- C3: a second `index()` run over an unchanged filesystem counts every
scanned file as unchanged (files_unchanged = files_scanned, with new, changed
and deleted all zero) and leaves the files, symbols, edges and callsites
tables exactly as the first run left them, so any pack query — a serializer
reading those tables — produces an identical serialization after either run.
The scanned paths and the initial store's paths are duplicate-free, as
guaranteed by the filesystem and the UNIQUE constraint on files.path. -/
theorem C3_second_run_identical (db0 : Db) (fs : List FSFile)
    (now1 now2 : Int) (force : Bool)
    (hfs : (fs.map FSFile.path).Nodup)
    (hdb : (db0.files.map FileRow.path).Nodup) :
    let db1 := (runIndexer db0 fs now1 force).1
    let r2 := runIndexer db1 fs now2 false
    (r2.2.files_unchanged = r2.2.files_scanned ∧
      r2.2.files_scanned = fs.length ∧
      r2.2.files_new = 0 ∧ r2.2.files_changed = 0 ∧ r2.2.files_deleted = 0) ∧
    (r2.1.files = db1.files ∧ r2.1.symbols = db1.symbols ∧
      r2.1.edges = db1.edges ∧ r2.1.callsites = db1.callsites) ∧
    (∀ packQuery : List FileRow → List SymbolRow → List EdgeRow →
        List CallsiteRow → String,
      packQuery r2.1.files r2.1.symbols r2.1.edges r2.1.callsites =
        packQuery db1.files db1.symbols db1.edges db1.callsites) := by
  intro db1 r2
  have hmatch : ∀ f ∈ fs, matchesFS db1 f := by
    intro f hf
    obtain ⟨r, hr, h1, h2, h3⟩ := foldl_runStep_matches now1 force fs
      (removeStaleFiles db0 (fs.map (fun g : FSFile => g.path))
        { initStats with files_scanned := fs.length }) hfs f hf
    refine ⟨r, ?_, h1, h2, h3⟩
    have h0 : getFile db1 f.path =
        getFile (runIndexer db0 fs now1 force).1 f.path := rfl
    rw [h0, runIndexer_getFile]
    exact hr
  have hA : ∀ r ∈ (removeStaleFiles db0 (fs.map (fun g : FSFile => g.path))
      { initStats with files_scanned := fs.length }).1.files,
      r.path ∈ fs.map FSFile.path :=
    staleFold_paths (fs.map FSFile.path) db0.files
      (db0, { initStats with files_scanned := fs.length }) hdb
      (fun q hq => Or.inr ⟨q, hq, rfl⟩)
  have hpaths : ∀ r ∈ db1.files, r.path ∈ fs.map FSFile.path := by
    intro r hr
    have hr2 : r ∈ (runIndexer db0 fs now1 force).1.files := hr
    rw [runIndexer_files] at hr2
    exact foldl_runStep_paths now1 force (fs.map FSFile.path) fs
      (removeStaleFiles db0 (fs.map (fun g : FSFile => g.path))
        { initStats with files_scanned := fs.length })
      (fun f hf => List.mem_map_of_mem FSFile.path hf) hA r hr2
  have hstale2 : removeStaleFiles db1 (fs.map (fun g : FSFile => g.path))
      { initStats with files_scanned := fs.length } =
      (db1, { initStats with files_scanned := fs.length }) :=
    staleFold_id (fs.map (fun g : FSFile => g.path)) db1.files
      (db1, { initStats with files_scanned := fs.length })
      (fun r hr => hpaths r hr)
  have hloop2 := foldl_runStep_noop now2 db1 fs
    { initStats with files_scanned := fs.length } hmatch
  have hstats : r2.2 = { { initStats with files_scanned := fs.length } with
      files_unchanged := ({ initStats with files_scanned := fs.length } :
        IndexStats).files_unchanged + fs.length } := by
    have h0 : r2.2 = (runIndexer db1 fs now2 false).2 := rfl
    rw [h0, runIndexer_snd, hstale2, hloop2]
  have hfiles : r2.1.files = db1.files := by
    have h0 : r2.1.files = (runIndexer db1 fs now2 false).1.files := rfl
    rw [h0, runIndexer_files, hstale2, hloop2]
  have hsymbols : r2.1.symbols = db1.symbols := by
    have h0 : r2.1.symbols = (runIndexer db1 fs now2 false).1.symbols := rfl
    rw [h0, runIndexer_symbols, hstale2, hloop2]
  have hedges : r2.1.edges = db1.edges := by
    have h0 : r2.1.edges = (runIndexer db1 fs now2 false).1.edges := rfl
    rw [h0, runIndexer_edges, hstale2, hloop2]
  have hcallsites : r2.1.callsites = db1.callsites := by
    have h0 : r2.1.callsites = (runIndexer db1 fs now2 false).1.callsites := rfl
    rw [h0, runIndexer_callsites, hstale2, hloop2]
  refine ⟨⟨?_, ?_, ?_, ?_, ?_⟩, ⟨hfiles, hsymbols, hedges, hcallsites⟩, ?_⟩
  · rw [hstats]
    simp [initStats]
  · rw [hstats]
  · rw [hstats]
    simp [initStats]
  · rw [hstats]
    simp [initStats]
  · rw [hstats]
    simp [initStats]
  · intro packQuery
    rw [hfiles, hsymbols, hedges, hcallsites]

/-- Concrete candidate file for the C3 witness run. -/
def c3File : FSFile := ⟨"a.py", 5, 10, "print(1)"⟩

/-- Witness for C3 at a concrete store and filesystem: one file, indexed
twice; the second run reports it unchanged and leaves the files table as the
first run wrote it. -/
theorem C3_second_run_identical_witness :
    (([c3File].map FSFile.path).Nodup ∧
      (emptyDb.files.map FileRow.path).Nodup) ∧
    (runIndexer (runIndexer emptyDb [c3File] 3 true).1 [c3File] 9
        false).2.files_unchanged =
      (runIndexer (runIndexer emptyDb [c3File] 3 true).1 [c3File] 9
        false).2.files_scanned ∧
    (runIndexer (runIndexer emptyDb [c3File] 3 true).1 [c3File] 9
        false).1.files =
      (runIndexer emptyDb [c3File] 3 true).1.files :=
  ⟨⟨by decide, by decide⟩,
   (C3_second_run_identical emptyDb [c3File] 3 9 true (by decide)
       (by decide)).1.1,
   (C3_second_run_identical emptyDb [c3File] 3 9 true (by decide)
       (by decide)).2.1.1⟩


/-! ### Zoom pack truncation (packs.py ZoomPack / ZoomPackGenerator._truncate_pack) -/

/-- Caller/callee entry of a ZoomPack as to_text renders it; the confidence is
carried pre-rendered (the source interpolates the float into an f-string). -/
structure ZoomRef where
  name : String
  file_path : String
  confidence : String
deriving Repr, DecidableEq

/-- ZoomPack of packs.py, with the target_symbol fields that to_text reads
inlined. -/
structure ZoomPackM where
  name : String
  file_path : String
  kind : String
  line_start : Nat
  code_slice : String
  signature : String
  docstring : Option String
  callers : List ZoomRef
  callees : List ZoomRef
deriving Repr, DecidableEq

/-- Python `sep.join(lines)`. -/
def pyJoin (sep : String) : List String → String
  | [] => ""
  | [x] => x
  | x :: y :: xs => x ++ sep ++ pyJoin sep (y :: xs)

/-- tokens.estimate_tokens: 0 for empty text, otherwise
`max(1, int(len/3.0))` for code and `max(1, int(len/3.5))` for prose
(`int(len/3.5)` is `2*len/7` rounded down). -/
def estimateTokens (text : String) (is_code : Bool) : Nat :=
  if text = "" then 0
  else if is_code then max 1 (text.length / 3)
  else max 1 (2 * text.length / 7)

/-- ZoomPack.to_text, line by line. -/
def zoomToText (p : ZoomPackM) : String :=
  let head := ["# Zoom: " ++ p.name, "", "**File:** `" ++ p.file_path ++ "`",
    "**Kind:** " ++ p.kind, "**Line:** " ++ Nat.repr p.line_start, "",
    "## Signature", "", "```",
    (if p.signature == "" then p.name else p.signature), "```", ""]
  let doc := match p.docstring with
    | some d => ["## Documentation", "", d, ""]
    | none => []
  let code := ["## Code", "", "```python", p.code_slice, "```", "",
    "## Callers", ""]
  let callerLines := (p.callers.take 10).map (fun c =>
    "- `" ++ c.name ++ "` in `" ++ c.file_path ++ "` (confidence: " ++
      c.confidence ++ ")")
  let callersMore := if p.callers.length > 10 then
    ["- ... and " ++ Nat.repr (p.callers.length - 10) ++ " more"] else []
  let calleeLines := (p.callees.take 10).map (fun c =>
    "- `" ++ c.name ++ "` in `" ++ c.file_path ++ "` (confidence: " ++
      c.confidence ++ ")")
  let calleesMore := if p.callees.length > 10 then
    ["- ... and " ++ Nat.repr (p.callees.length - 10) ++ " more"] else []
  pyJoin "\n" (head ++ doc ++ code ++ callerLines ++ callersMore ++
    ["", "## Callees", ""] ++ calleeLines ++ calleesMore)

/-- Python `l[:n]` for an `int` bound: a negative bound keeps all but the
last `|n|` elements (empty when `|n|` is at least the length). -/
def pyTakeInt (l : List α) (n : Int) : List α :=
  if n < 0 then l.take (l.length - (-n).toNat)
  else l.take n.toNat

/-- State of the code-slice while loop of _truncate_pack: the local
`code_lines` and `max_code_lines` (an `int` that the source decrements
without a floor) and the pack being mutated. -/
structure ZoomLoopState where
  code_lines : List String
  max_code_lines : Int
  pack : ZoomPackM
deriving Repr, DecidableEq

/-- Outcome of one iteration of the code-slice while loop. -/
inductive ZoomStepResult where
  | done (p : ZoomPackM) : ZoomStepResult
  | next (s : ZoomLoopState) : ZoomStepResult
  | exit (s : ZoomLoopState) : ZoomStepResult
deriving Repr, DecidableEq

/-- One iteration of `while len(code_lines) > max_code_lines`: slice the
lines to the cap, rebuild the code slice with the truncation marker, return
the pack when within budget, else decrement the cap by 10; `exit` is the
loop condition turning false (control proceeding to the caller/callee
trimming phases). -/
def zoomStep (budget : Nat) (s : ZoomLoopState) : ZoomStepResult :=
  if (s.code_lines.length : Int) > s.max_code_lines then
    let code_lines := pyTakeInt s.code_lines s.max_code_lines
    let pack := { s.pack with
      code_slice := pyJoin "\n" code_lines ++ "\n# ... truncated" }
    if estimateTokens (zoomToText pack) true ≤ budget then
      .done pack
    else
      .next ⟨code_lines, s.max_code_lines - 10, pack⟩
  else
    .exit s

/-- Entry into _truncate_pack's while loop: `max_code_lines = 50` and the
code slice split on newlines. -/
def zoomInit (p : ZoomPackM) : ZoomLoopState :=
  ⟨pySplit p.code_slice '\n', 50, p⟩

/-- Run `n` iterations of the while loop; `.next` means the loop is still
running after `n` iterations. -/
def zoomIter (budget : Nat) : Nat → ZoomLoopState → ZoomStepResult
  | 0, s => .next s
  | n + 1, s =>
    match zoomStep budget s with
    | .done p => .done p
    | .exit s2 => .exit s2
    | .next s2 => zoomIter budget n s2

/-- Splitting a run of `m` iterations then `n` more. -/
theorem zoomIter_add (b : Nat) : ∀ (m n : Nat) (s : ZoomLoopState),
    zoomIter b (m + n) s =
      (match zoomIter b m s with
        | .next s2 => zoomIter b n s2
        | r => r) := by
  intro m
  induction m with
  | zero =>
    intro n s
    rw [Nat.zero_add]
    rfl
  | succ k ih =>
    intro n s
    rw [show k + 1 + n = (k + n) + 1 from by omega]
    cases h : zoomStep b s with
    | done p => simp [zoomIter, h]
    | exit s2 => simp [zoomIter, h]
    | next s2 => simp [zoomIter, h, ih]

/-- If the loop is still running after `n` iterations it was still running
after any earlier number of iterations. -/
theorem zoomIter_next_mono (b : Nat) (n m : Nat) (s s2 : ZoomLoopState)
    (h : zoomIter b n s = .next s2) (hm : m ≤ n) :
    ∃ s3, zoomIter b m s = .next s3 := by
  have hsplit := zoomIter_add b m (n - m) s
  rw [show m + (n - m) = n from by omega, h] at hsplit
  cases hq : zoomIter b m s with
  | next s3 => exact ⟨s3, rfl⟩
  | done p => rw [hq] at hsplit; simp at hsplit
  | exit s3 => rw [hq] at hsplit; simp at hsplit

/-- The C9 pack: a symbol whose code slice is 60 lines, to be truncated to a
budget of 1 token. -/
def c9Pack : ZoomPackM :=
  ⟨"f", "a.py", "function", 1, pyJoin "\n" (List.replicate 60 "x"),
    "def f(x):", some "Doc line.", [], []⟩

/-- The pack once the loop has emptied the code slice: nothing left of the
code but the truncation marker. -/
def c9StuckPack : ZoomPackM :=
  { c9Pack with code_slice := "\n# ... truncated" }

/-- From an empty code-lines list and a negative cap, the loop spins forever:
the guard `0 > max_code_lines` stays true, the slice of an empty list is
empty, the text stays over the 1-token budget, and the cap only decreases. -/
theorem c9_stuck_iter : ∀ (n : Nat) (max : Int), max < 0 →
    ∃ max2, zoomIter 1 n ⟨[], max, c9StuckPack⟩ =
      .next ⟨[], max2, c9StuckPack⟩ ∧ max2 < 0 := by
  intro n
  induction n with
  | zero => intro max h; exact ⟨max, rfl, h⟩
  | succ k ih =>
    intro max h
    have hstep : zoomStep 1 ⟨[], max, c9StuckPack⟩ =
        .next ⟨[], max - 10, c9StuckPack⟩ := by
      have hc : (((⟨[], max, c9StuckPack⟩ : ZoomLoopState).code_lines.length : Int) >
          (⟨[], max, c9StuckPack⟩ : ZoomLoopState).max_code_lines) := by
        simp
        omega
      have htake : pyTakeInt (⟨[], max, c9StuckPack⟩ : ZoomLoopState).code_lines
          (⟨[], max, c9StuckPack⟩ : ZoomLoopState).max_code_lines =
          ([] : List String) := by
        show pyTakeInt ([] : List String) max = ([] : List String)
        unfold pyTakeInt
        split <;> simp
      unfold zoomStep
      rw [if_pos hc]
      simp only [htake]
      rw [if_neg (by decide)]
      rfl
    obtain ⟨max2, heq, h2⟩ := ih (max - 10) (by omega)
    refine ⟨max2, ?_, h2⟩
    simp only [zoomIter, hstep]
    exact heq

/-- C9: truncating a Zoom pack whose code slice has 60 lines against a budget
of 1 token never terminates: the code-slice while loop trims the slice to 50,
40, ..., 10 lines and then — `max_code_lines` having no floor at 10 — to 0
lines (the slice degenerates to just the truncation marker, violating the
claimed 10-line minimum), after which `len(code_lines) > max_code_lines`
reads `0 > -10, 0 > -20, ...`, which is always true while the state no longer
changes, so the loop runs forever and the caller/callee-trimming and
docstring stages are never reached. -/
theorem C9_zoom_code_loop_never_terminates :
    (∀ n : Nat, ∃ s, zoomIter 1 n (zoomInit c9Pack) = .next s) ∧
    (∃ s, zoomIter 1 6 (zoomInit c9Pack) = .next s ∧ s.code_lines = [] ∧
      s.pack.code_slice = "\n# ... truncated") := by
  have h6 : zoomIter 1 6 (zoomInit c9Pack) =
      .next ⟨[], -10, c9StuckPack⟩ := by decide
  constructor
  · intro n
    by_cases hn : n ≤ 6
    · exact zoomIter_next_mono 1 6 n _ _ h6 hn
    · rw [show n = 6 + (n - 6) from by omega, zoomIter_add 1 6 (n - 6)
        (zoomInit c9Pack), h6]
      obtain ⟨max2, heq, _⟩ := c9_stuck_iter (n - 6) (-10) (by norm_num)
      exact ⟨_, heq⟩
  · exact ⟨⟨[], -10, c9StuckPack⟩, h6, rfl, rfl⟩


/-! ### Token budgeting (tokens.py)

Floats are modelled exactly: `CHARS_PER_TOKEN = 3.5` makes
`int(n / 3.5) = 2*n/7` and `int(n * 3.5) = 7*n/2` in natural division, and
the boundary fractions 0.6/0.7/0.8/0.9 become scaled integer comparisons.
Python `str.strip` is modelled as stripping space/tab/CR/LF. -/

/-- The lookahead `(?=#{1,3}[^#])` of parse_sections: one to three hashes
followed by a character that is not a hash. -/
def isHeaderStart : List Char → Bool
  | '#' :: '#' :: '#' :: '#' :: _ => false
  | '#' :: '#' :: '#' :: _ :: _ => true
  | '#' :: '#' :: '#' :: [] => false
  | '#' :: '#' :: _ :: _ => true
  | '#' :: '#' :: [] => false
  | '#' :: _ :: _ => true
  | _ => false

/-- `re.split(r'\n(?=#{1,3}[^#])', ...)`: cut at every newline that the
lookahead accepts, consuming the newline. -/
def splitSectionsAux : List Char → List Char → List (List Char)
  | acc, [] => [acc.reverse]
  | acc, c :: rest =>
    if c == '\n' && isHeaderStart rest then
      acc.reverse :: splitSectionsAux [] rest
    else
      splitSectionsAux (c :: acc) rest

/-- Python `part.split('\n', 1)`: the first line and, when a newline exists,
the remainder. -/
def pySplitOnce : List Char → Char → List Char × Option (List Char)
  | [], _ => ([], none)
  | c :: rest, sep =>
    if c = sep then ([], some rest)
    else
      let r := pySplitOnce rest sep
      (c :: r.1, r.2)

/-- Section of tokens.py. -/
structure SectionM where
  header : String
  content : String
  priority : Nat
deriving Repr, DecidableEq

/-- Section.total_text: header, newline, content. -/
def sectionText (s : SectionM) : String :=
  s.header ++ "\n" ++ s.content

/-- Section.token_count. -/
def sectionTokens (s : SectionM) (is_code : Bool) : Nat :=
  estimateTokens (sectionText s) is_code

/-- tokens.parse_sections: split `'\n' + text` at header boundaries, strip
each part, skip empty parts, split the first line off as the (re-stripped)
header, and assign priority 10/5/3/0 by header level. -/
def parseSections (text : String) : List SectionM :=
  let parts := splitSectionsAux [] ('\n' :: text.data)
  parts.foldr (fun part acc =>
    let stripped := pyStripChars part
    if stripped.isEmpty then acc
    else
      let sp := pySplitOnce stripped '\n'
      let headerL := pyStripChars sp.1
      let priority : Nat :=
        if ['#', ' '].isPrefixOf headerL then 10
        else if ['#', '#', ' '].isPrefixOf headerL then 5
        else if ['#', '#', '#', ' '].isPrefixOf headerL then 3
        else 0
      ⟨String.mk headerL, String.mk ((sp.2).getD []), priority⟩ :: acc) []

/-- Python `str.find` for a pattern list: smallest index where the pattern
occurs, `-1` if absent. -/
def pyFindSub (l pat : List Char) : Int :=
  match ((List.range (l.length + 1)).filter
      (fun i => pat.isPrefixOf (l.drop i))).head? with
  | some i => (i : Int)
  | none => -1

/-- Python `str.rfind` for a pattern list: greatest index where the pattern
occurs, `-1` if absent. -/
def pyRfindSub (l pat : List Char) : Int :=
  match ((List.range (l.length + 1)).filter
      (fun i => pat.isPrefixOf (l.drop i))).getLast? with
  | some i => (i : Int)
  | none => -1

/-- tokens._simple_truncate: cut at `int(budget * chars_per_tok)` characters,
prefer a paragraph/line/word boundary past 70%/80%/90% of the target, then
append the 51-character truncation notice. -/
def simpleTruncate (text : String) (budget : Nat) (is_code : Bool) : String :=
  let targetChars := if is_code then budget * 3 else 7 * budget / 2
  if text.length ≤ targetChars then text
  else
    let t0 := text.data.take targetChars
    let lastPara := pyRfindSub t0 ['\n', '\n']
    let lastLine := pyRfindSub t0 ['\n']
    let lastSpace := pyRfindSub t0 [' ']
    let t1 :=
      if 10 * lastPara > 7 * (targetChars : Int) then t0.take lastPara.toNat
      else if 10 * lastLine > 8 * (targetChars : Int) then t0.take lastLine.toNat
      else if 10 * lastSpace > 9 * (targetChars : Int) then t0.take lastSpace.toNat
      else t0
    String.mk t1 ++ "\n\n---\n[Content truncated - more available via zoom]"

/-- tokens._truncate_section: `None` when the header alone eats the budget,
else cut the content to the remaining budget's characters, prefer a
paragraph/line boundary past 60%/80% of the cut length, drop the section if
nothing but whitespace survives, and append the 31-character zoom pointer. -/
def truncateSection (s : SectionM) (budget : Nat) (is_code : Bool) :
    Option SectionM :=
  let headerTokens := estimateTokens s.header is_code
  if headerTokens ≥ budget then none
  else
    let contentBudget := budget - headerTokens
    let targetChars := if is_code then contentBudget * 3
      else 7 * contentBudget / 2
    let c0 := s.content.data.take targetChars
    let lastPara := pyRfindSub c0 ['\n', '\n']
    let lastLine := pyRfindSub c0 ['\n']
    let c1 :=
      if 10 * lastPara > 6 * (c0.length : Int) then c0.take lastPara.toNat
      else if 10 * lastLine > 8 * (c0.length : Int) then c0.take lastLine.toNat
      else c0
    if (pyStripChars c1).isEmpty then none
    else some ⟨s.header, String.mk c1 ++ "\n\n[... more available via zoom]",
      s.priority⟩

/-- The keep-sections loop of truncate_to_budget: accumulate whole sections
while they fit, and at the first section that does not fit, include a partial
version only when more than 50 tokens remain, then stop. -/
def greedyTake (budget : Nat) (is_code : Bool) :
    List SectionM → Nat → List SectionM
  | [], _ => []
  | s :: rest, used =>
    let st := sectionTokens s is_code
    if used + st ≤ budget then
      s :: greedyTake budget is_code rest (used + st)
    else
      let remaining := budget - used
      if remaining > 50 then
        match truncateSection s remaining is_code with
        | some p => [p]
        | none => []
      else []

/-- tokens.truncate_to_budget: return short texts unchanged; with no parsed
sections fall back to _simple_truncate; otherwise stably sort by descending
priority, keep sections greedily, sort the kept sections back by the position
of their header in the original text, join with blank lines, and append the
"[N more sections available via zoom]" notice when the result shrank and
sections were dropped. -/
def truncateToBudget (text : String) (budget : Nat)
    (is_code preservePriority : Bool) : String :=
  if text = "" then ""
  else
    let currentTokens := estimateTokens text is_code
    if currentTokens ≤ budget then text
    else
      let sections := parseSections text
      if sections.isEmpty then simpleTruncate text budget is_code
      else
        let sorted := if preservePriority then
            pySorted (fun a b => decide (b.priority ≤ a.priority)) sections
          else sections
        let results := greedyTake budget is_code sorted 0
        let results1 := pySorted (fun a b =>
            decide (pyFindSub text.data a.header.data ≤
              pyFindSub text.data b.header.data)) results
        let result := pyJoin "\n\n" (results1.map sectionText)
        if estimateTokens result is_code < currentTokens then
          let truncatedCount := sections.length - results1.length
          if truncatedCount > 0 then
            result ++ "\n\n---\n[" ++ Nat.repr truncatedCount ++
              " more sections available via zoom]"
          else result
        else result

/-- Twenty one-line `## a` sections: each costs 1 estimated token, so
per-section rounding and separators blow past the claimed 10% slack. -/
def c4Text : String := pyJoin "\n" (List.replicate 20 "## a")

/-- Character-count bound from a prose token estimate: each estimated token
covers at most 3.5 characters. -/
theorem est_le (s : String) : 2 * s.length ≤ 7 * estimateTokens s false + 6 := by
  unfold estimateTokens
  split_ifs with h1 h2
  · simp [h1]
  · simp at h2
  · have hmax := Nat.le_max_right 1 (2 * s.length / 7)
    omega

/-- A prose token estimate from a character-count bound. -/
theorem est_le_of_len {r : String} {K : Nat} (h : 2 * r.length ≤ 7 * K + 6)
    (hK : 1 ≤ K) : estimateTokens r false ≤ K := by
  unfold estimateTokens
  split_ifs with h1 h2
  · omega
  · simp at h2
  · have hdiv : 2 * r.length / 7 ≤ K := by omega
    exact Nat.max_le.mpr ⟨hK, hdiv⟩

/-- Every iteration of Nat.toDigitsCore prepends at most one character and
consumes one unit of fuel. -/
theorem toDigitsCore_length (b : Nat) :
    ∀ (fuel n : Nat) (ds : List Char),
      (Nat.toDigitsCore b fuel n ds).length ≤ ds.length + fuel := by
  intro fuel
  induction fuel with
  | zero => intro n ds; simp [Nat.toDigitsCore]
  | succ k ih =>
    intro n ds
    simp only [Nat.toDigitsCore]
    split
    · simp
    · have := ih (n / b) (Nat.digitChar (n % b) :: ds)
      simp at this ⊢
      omega

/-- The decimal rendering of `n` has at most `n + 1` characters. -/
theorem natRepr_length_le (n : Nat) : (Nat.repr n).length ≤ n + 1 := by
  have h := toDigitsCore_length 10 (n + 1) n []
  simpa [Nat.repr, Nat.toDigits, List.asString] using h

/-- Length of a Python join: the summed part lengths plus one separator per
gap. -/
theorem pyJoin_length (sep : String) : ∀ l : List String,
    (pyJoin sep l).length =
      (l.map String.length).sum + sep.length * (l.length - 1) := by
  intro l
  induction l with
  | nil => simp [pyJoin]
  | cons x xs ih =>
    cases xs with
    | nil => simp [pyJoin]
    | cons y ys =>
      simp only [pyJoin, String.length_append, ih, List.map_cons, List.sum_cons,
        List.length_cons]
      rw [show ys.length + 1 + 1 - 1 = ys.length + 1 from by omega,
        show ys.length + 1 - 1 = ys.length from by omega]
      ring

/-- A partial section fits the remaining budget up to rounding: its text
costs at most the remaining budget's characters plus the header rounding and
the 31-character zoom pointer. -/
theorem truncateSection_bound (s : SectionM) (rem : Nat) (p : SectionM)
    (h : truncateSection s rem false = some p) :
    2 * (sectionText p).length ≤ 7 * rem + 70 := by
  unfold truncateSection at h
  by_cases h1 : estimateTokens s.header false ≥ rem
  · rw [if_pos h1] at h
    exact absurd h (by simp)
  rw [if_neg h1] at h
  simp only [Bool.false_eq_true, if_false] at h
  generalize hc0eq : List.take (7 * (rem - estimateTokens s.header false) / 2)
    s.content.data = c0 at h
  generalize hc1eq : (if 10 * pyRfindSub c0 ['\n', '\n'] > 6 * (c0.length : Int)
      then List.take (pyRfindSub c0 ['\n', '\n']).toNat c0
      else if 10 * pyRfindSub c0 ['\n'] > 8 * (c0.length : Int) then
        List.take (pyRfindSub c0 ['\n']).toNat c0
      else c0) = c1 at h
  split at h
  · exact absurd h (by simp)
  · rw [Option.some.injEq] at h
    subst h
    have hhl := est_le s.header
    have hc0 : c0.length ≤ 7 * (rem - estimateTokens s.header false) / 2 := by
      rw [← hc0eq]
      simp [List.length_take]
    have hc1 : c1.length ≤ c0.length := by
      rw [← hc1eq]
      split_ifs <;> simp [List.length_take]
    simp only [sectionText, String.length_append]
    have hlit : ("\n\n[... more available via zoom]" : String).length = 31 := rfl
    have hnl : ("\n" : String).length = 1 := rfl
    have hmk : (String.mk c1).length = c1.length := rfl
    rw [hlit, hnl, hmk]
    omega

/-- The greedy keep-sections loop: the kept sections' total character count
is bounded by the unused budget's characters plus per-section rounding and
the partial section's pointer, and at most as many sections are kept as were
offered. -/
theorem greedyTake_bound (budget : Nat) :
    ∀ (l : List SectionM) (used : Nat), used ≤ budget →
      2 * ((greedyTake budget false l used).map
          (fun s => (sectionText s).length)).sum ≤
        7 * (budget - used) + 6 * (greedyTake budget false l used).length + 70
      ∧ (greedyTake budget false l used).length ≤ l.length := by
  intro l
  induction l with
  | nil => intro used _; simp [greedyTake]
  | cons s rest ih =>
    intro used hused
    by_cases hfit : used + sectionTokens s false ≤ budget
    · have hgt : greedyTake budget false (s :: rest) used =
          s :: greedyTake budget false rest (used + sectionTokens s false) := by
        simp only [greedyTake]
        rw [if_pos hfit]
      rw [hgt]
      obtain ⟨hsum, hlen⟩ := ih (used + sectionTokens s false) hfit
      have hs := est_le (sectionText s)
      have hst : sectionTokens s false = estimateTokens (sectionText s) false :=
        rfl
      constructor
      · simp only [List.map_cons, List.sum_cons, List.length_cons]
        omega
      · simp only [List.length_cons]
        omega
    · by_cases hrem : budget - used > 50
      · cases hts : truncateSection s (budget - used) false with
        | none =>
          have hgt : greedyTake budget false (s :: rest) used = [] := by
            simp only [greedyTake]
            rw [if_neg hfit, if_pos hrem, hts]
          rw [hgt]
          simp
        | some p =>
          have hgt : greedyTake budget false (s :: rest) used = [p] := by
            simp only [greedyTake]
            rw [if_neg hfit, if_pos hrem, hts]
          rw [hgt]
          have hp := truncateSection_bound s (budget - used) p hts
          constructor
          · simp only [List.map_cons, List.map_nil, List.sum_cons,
              List.sum_nil, List.length_cons, List.length_nil]
            omega
          · simp
      · have hgt : greedyTake budget false (s :: rest) used = [] := by
          simp only [greedyTake]
          rw [if_neg hfit, if_neg hrem]
        rw [hgt]
        simp

/-- _simple_truncate stays within the budget's characters plus its
51-character notice, so within `B + 25` estimated tokens. -/
theorem simpleTruncate_bound (text : String) (B : Nat) (hB : 1 ≤ B) :
    estimateTokens (simpleTruncate text B false) false ≤ B + 25 := by
  unfold simpleTruncate
  simp only [Bool.false_eq_true, if_false]
  by_cases h1 : text.length ≤ 7 * B / 2
  · rw [if_pos h1]
    exact est_le_of_len (by omega) (by omega)
  · rw [if_neg h1]
    generalize ht0 : List.take (7 * B / 2) text.data = t0
    have ht0len : t0.length ≤ 7 * B / 2 := by
      rw [← ht0]; simp [List.length_take]
    generalize ht1 : (if 10 * pyRfindSub t0 ['\n', '\n'] >
          7 * ((7 * B / 2 : Nat) : Int) then
        List.take (pyRfindSub t0 ['\n', '\n']).toNat t0
      else if 10 * pyRfindSub t0 ['\n'] > 8 * ((7 * B / 2 : Nat) : Int) then
        List.take (pyRfindSub t0 ['\n']).toNat t0
      else if 10 * pyRfindSub t0 [' '] > 9 * ((7 * B / 2 : Nat) : Int) then
        List.take (pyRfindSub t0 [' ']).toNat t0
      else t0) = t1
    have ht1len : t1.length ≤ t0.length := by
      rw [← ht1]; split_ifs <;> simp [List.length_take]
    apply est_le_of_len _ (by omega)
    have hlit :
        ("\n\n---\n[Content truncated - more available via zoom]" : String).length
          = 51 := rfl
    have hmk : (String.mk t1).length = t1.length := rfl
    rw [String.length_append, hlit, hmk]
    omega

/-- The kept sections, re-sorted and joined with blank lines, cost at most
the budget's characters plus per-section rounding and separators. -/
theorem joined_result_bound (B : Nat) (l : List SectionM) (n : Nat)
    (hlen : l.length ≤ n) (le : SectionM → SectionM → Bool) :
    2 * (pyJoin "\n\n" ((pySorted le (greedyTake B false l 0)).map
        sectionText)).length ≤ 7 * B + 10 * n + 66 := by
  have hperm : (pySorted le (greedyTake B false l 0)).Perm
      (greedyTake B false l 0) := List.perm_insertionSort _ _
  have hsum : ((pySorted le (greedyTake B false l 0)).map
        (fun s => (sectionText s).length)).sum =
      ((greedyTake B false l 0).map (fun s => (sectionText s).length)).sum :=
    (hperm.map (fun s => (sectionText s).length)).sum_eq
  have hk : (pySorted le (greedyTake B false l 0)).length =
      (greedyTake B false l 0).length := hperm.length_eq
  obtain ⟨hg, hglen⟩ := greedyTake_bound B l 0 (Nat.zero_le B)
  rw [pyJoin_length]
  rw [List.map_map]
  have hsep : ("\n\n" : String).length = 2 := rfl
  rw [hsep]
  have hcomp : (String.length ∘ sectionText) =
      (fun s => (sectionText s).length) := rfl
  rw [hcomp, hsum, List.length_map, hk]
  have h70 : 2 * ((List.map (fun s => (sectionText s).length)
      (greedyTake B false l 0)).sum) ≤
      7 * B + 6 * (greedyTake B false l 0).length + 70 := by omega
  have hkn : (greedyTake B false l 0).length ≤ n := le_trans hglen hlen
  rcases Nat.eq_zero_or_pos (greedyTake B false l 0).length with hk0 | hk1
  · have hnil : greedyTake B false l 0 = [] := List.length_eq_zero.mp hk0
    rw [hnil]
    simp
  · omega

/-- C4 amended: the token estimate of the truncation's result is bounded by
the budget plus a per-section rounding overhead of 3 tokens per parsed
section and a constant 25 tokens for the appended notices — but not by the
claimed `B × 1.1`. -/
theorem C4_truncate_budget_amended (text : String) (B : Nat) (hB : 0 < B)
    (pp : Bool) :
    estimateTokens (truncateToBudget text B false pp) false ≤
      B + 3 * (parseSections text).length + 25 := by
  simp only [truncateToBudget]
  by_cases h1 : text = ""
  · rw [if_pos h1]
    simp [estimateTokens]
  rw [if_neg h1]
  by_cases h2 : estimateTokens text false ≤ B
  · rw [if_pos h2]
    omega
  rw [if_neg h2]
  by_cases h3 : (parseSections text).isEmpty
  · rw [if_pos h3]
    exact le_trans (simpleTruncate_bound text B hB) (by omega)
  rw [if_neg h3]
  set n := (parseSections text).length with hn
  set srt := (if pp then
      pySorted (fun a b => decide (b.priority ≤ a.priority)) (parseSections text)
    else parseSections text) with hsrt
  set gr := greedyTake B false srt 0 with hgr
  set srt2 := pySorted (fun a b =>
      decide (pyFindSub text.data a.header.data ≤
        pyFindSub text.data b.header.data)) gr with hsrt2
  set J := pyJoin "\n\n" (srt2.map sectionText) with hJ
  have hsl : srt.length ≤ n := by
    rw [hsrt, hn]
    split_ifs
    · exact le_of_eq (List.perm_insertionSort _ _).length_eq
    · exact le_rfl
  have hjoin := joined_result_bound B srt n hsl (fun a b =>
    decide (pyFindSub text.data a.header.data ≤
      pyFindSub text.data b.header.data))
  rw [← hgr, ← hsrt2, ← hJ] at hjoin
  have hK : 1 ≤ B + 3 * n + 25 := by omega
  by_cases h4 : estimateTokens J false < estimateTokens text false
  · rw [if_pos h4]
    by_cases h5 : n - srt2.length > 0
    · rw [if_pos h5]
      apply est_le_of_len _ hK
      rw [String.length_append, String.length_append, String.length_append]
      have hl1 : ("\n\n---\n[" : String).length = 7 := rfl
      have hl2 : (" more sections available via zoom]" : String).length = 34 :=
        rfl
      have hrep := natRepr_length_le (n - srt2.length)
      have hcnt : n - srt2.length ≤ n := Nat.sub_le _ _
      rw [hl1, hl2]
      omega
    · rw [if_neg h5]
      exact est_le_of_len (by omega) hK
  · rw [if_neg h4]
    exact est_le_of_len (by omega) hK

/-- C4 counterexample: twenty `## a` sections against a budget of 10 — each
one-line section costs one estimated token so ten are kept, and the joined
result with its blank-line separators and the truncation notice estimates at
31 tokens, far beyond the claimed `10 × 1.1 = 11`. -/
theorem C4_truncate_budget_counterexample :
    estimateTokens (truncateToBudget c4Text 10 false true) false = 31 ∧
    ¬ (10 * estimateTokens (truncateToBudget c4Text 10 false true) false ≤
        11 * 10) := by
  decide

/-- Witness for the amended C4 bound at the counterexample input: 31 is
within `10 + 3·20 + 25`. -/
theorem C4_truncate_budget_amended_witness :
    0 < 10 ∧
    estimateTokens (truncateToBudget c4Text 10 false true) false ≤
      10 + 3 * (parseSections c4Text).length + 25 :=
  ⟨by decide, C4_truncate_budget_amended c4Text 10 (by decide) true⟩

end PUI
